import Mathlib

/-!
Verification development for the easyggs Go-game service.

This file shallowly embeds the TypeScript sources of the repository:

* `src/types.ts`            — `Stone`, `Color`, `Board` (mutable grid embedded as a
  function `Int → Int → Stone` together with explicit width/height; `setStone`
  returns the updated board).
* `src/boardParser.ts`      — the wire-format codec.  JavaScript numbers and
  bitwise operators are modelled exactly: `x >> n` and `x << n` coerce to 32-bit
  two's complement and shift by `n mod 32`; `parseInt` returns `none` for NaN.
* `src/server.ts` helpers   — `detectCaptures`, `getConnectedGroup`,
  `hasNoLiberties`, `detectKo`, `boardStateToString`, `getNPCMoveWithKo` and the
  move application sequence of `simulateNPCGame`.
* `src/npcAI.ts`            — the move scorer.  JavaScript floating point scores
  are modelled in `ℚ`; every score produced by the program is a small multiple
  of 1/4, for which IEEE double arithmetic is exact, so `ℚ` is faithful.
  `Math.random()` is threaded explicitly as a function from the candidate cell
  to the drawn value (`rand` below); the jitter term is `(rand - 1/2) * 2`.
* `src/influence.ts` and `src/influenceAdapter.ts` — the influence estimator.
  Thrown exceptions are modelled with `Except String`.

Recursive/looping code is embedded either with explicit fuel (flood fills; the
fuel is chosen and proved large enough that the loop always runs to completion)
or with a step counter that mirrors the loop variant (the occlusion walk).
-/

set_option maxRecDepth 16000

attribute [local semireducible] Rat.add Rat.mul Rat.sub Rat.inv

namespace EasyGGS

/-! ### JavaScript number primitives

JS bitwise operators first convert their operands with ToInt32/ToUint32 and
use only the low five bits of a shift count.  `parseInt` is modelled as
returning `none` where JS returns NaN; all integers appearing in this
development are far below 2^53, where IEEE doubles are exact. -/

def toInt32 (n : Int) : Int :=
  let m := n.emod 4294967296
  if 2147483648 ≤ m then m - 4294967296 else m

def toUint32Nat (n : Int) : Nat :=
  (n.emod 4294967296).toNat

/-- JS `a >> count` (sign-propagating right shift on the ToInt32 image;
arithmetic shift right equals flooring division by a power of two). -/
def jsShr (a : Int) (count : Nat) : Int :=
  Int.fdiv (toInt32 a) (2 ^ (count % 32))

/-- JS `a << count`. -/
def jsShl (a : Int) (count : Nat) : Int :=
  toInt32 (toInt32 a * 2 ^ (count % 32))

/-- JS `a & b`. -/
def jsAnd (a b : Int) : Int :=
  toInt32 (Int.ofNat (Nat.land (toUint32Nat a) (toUint32Nat b)))

/-- JS `a | b`. -/
def jsOr (a b : Int) : Int :=
  toInt32 (Int.ofNat (Nat.lor (toUint32Nat a) (toUint32Nat b)))

def isJsSpace (c : Char) : Bool :=
  c = ' ' || c = '\t' || c = '\n' || c = '\r'

/-- JS `String.prototype.trim` on an explicit character list. -/
def trimChars (cs : List Char) : List Char :=
  ((cs.dropWhile isJsSpace).reverse.dropWhile isJsSpace).reverse

def isDigitChar (c : Char) : Bool :=
  '0' ≤ c && c ≤ '9'

def digitsToNat (ds : List Char) : Nat :=
  ds.foldl (fun acc c => acc * 10 + (c.toNat - '0'.toNat)) 0

/-- JS `parseInt(s)` (radix 10): skip whitespace, optional sign, then the
longest digit prefix; NaN (here `none`) when no digit is found. -/
def parseIntJs (cs : List Char) : Option Int :=
  let cs := trimChars cs
  let signAndRest : Int × List Char :=
    match cs with
    | '-' :: r => (-1, r)
    | '+' :: r => (1, r)
    | r => (1, r)
  let digits := signAndRest.2.takeWhile isDigitChar
  if digits.isEmpty then none
  else some (signAndRest.1 * Int.ofNat (digitsToNat digits))

/-- JS `String.prototype.split` with a single-character separator. -/
def splitOnChar (sep : Char) : List Char → List (List Char)
  | [] => [[]]
  | c :: t =>
    let r := splitOnChar sep t
    if c = sep then [] :: r
    else
      match r with
      | [] => [[c]]
      | h :: t2 => (c :: h) :: t2

/-- Decidable equality for `Except` values, used to evaluate the parser and the
influence engine on concrete inputs. -/
def exceptDecEq {ε α : Type} [DecidableEq ε] [DecidableEq α] :
    DecidableEq (Except ε α) := fun a b =>
  match a, b with
  | .error e, .error f =>
    if h : e = f then .isTrue (by rw [h]) else .isFalse (by simp [h])
  | .error _, .ok _ => .isFalse (by simp)
  | .ok _, .error _ => .isFalse (by simp)
  | .ok x, .ok y =>
    if h : x = y then .isTrue (by rw [h]) else .isFalse (by simp [h])

instance {ε α : Type} [DecidableEq ε] [DecidableEq α] : DecidableEq (Except ε α) :=
  exceptDecEq

/-! ### `src/types.ts` -/

inductive Stone where
  | NONE
  | BLACK
  | WHITE
deriving DecidableEq, Repr

inductive Color where
  | black
  | white
deriving DecidableEq, Repr

/-- The stone placed by a player (`color === 'black' ? 1 : 2`). -/
def Color.stone : Color → Stone
  | .black => .BLACK
  | .white => .WHITE

/-- The opponent's stone (`color === 'black' ? 2 : 1`). -/
def Color.opponentStone : Color → Stone
  | .black => .WHITE
  | .white => .BLACK

/-- `class Board` from `types.ts`: a `width × height` grid of stones.  The
backing array is embedded as a total function; `getStone`/`setStone` perform
the same bounds checks as the source. -/
structure Board where
  width : Nat
  height : Nat
  stones : Int → Int → Stone

/-- `new Board(width, height)`: all cells start at `Stone.NONE`. -/
def Board.new (width height : Nat) : Board :=
  ⟨width, height, fun _ _ => .NONE⟩

/-- `isValidPosition(row, col)`. -/
def Board.isValidPosition (b : Board) (row col : Int) : Bool :=
  decide (0 ≤ row) && decide (row < (b.height : Int)) &&
    decide (0 ≤ col) && decide (col < (b.width : Int))

/-- `getStone(row, col)`: out-of-range reads return `Stone.NONE`. -/
def Board.getStone (b : Board) (row col : Int) : Stone :=
  if b.isValidPosition row col then b.stones row col else .NONE

/-- `setStone(row, col, stone)`: out-of-range writes are ignored. -/
def Board.setStone (b : Board) (row col : Int) (s : Stone) : Board :=
  if b.isValidPosition row col then
    { b with stones := fun r c => if r = row ∧ c = col then s else b.stones r c }
  else b

/-- `isEmpty(row, col)`. -/
def Board.isEmpty (b : Board) (row col : Int) : Bool :=
  b.getStone row col = .NONE

theorem Board.isValidPosition_iff (b : Board) (row col : Int) :
    b.isValidPosition row col = true ↔
      0 ≤ row ∧ row < (b.height : Int) ∧ 0 ≤ col ∧ col < (b.width : Int) := by
  simp [Board.isValidPosition, and_assoc]

theorem Board.width_setStone (b : Board) (row col : Int) (s : Stone) :
    (b.setStone row col s).width = b.width := by
  unfold Board.setStone; split <;> rfl

theorem Board.height_setStone (b : Board) (row col : Int) (s : Stone) :
    (b.setStone row col s).height = b.height := by
  unfold Board.setStone; split <;> rfl

theorem Board.isValidPosition_setStone (b : Board) (row col r c : Int) (s : Stone) :
    (b.setStone row col s).isValidPosition r c = b.isValidPosition r c := by
  unfold Board.setStone; split <;> rfl

theorem Board.getStone_setStone_same (b : Board) (row col : Int) (s : Stone)
    (h : b.isValidPosition row col = true) :
    (b.setStone row col s).getStone row col = s := by
  unfold Board.setStone Board.getStone
  simp only [h, if_true, Board.isValidPosition]
  simp [Board.isValidPosition] at h
  simp [h]

theorem Board.getStone_setStone_ne (b : Board) (row col r c : Int) (s : Stone)
    (h : ¬(r = row ∧ c = col)) :
    (b.setStone row col s).getStone r c = b.getStone r c := by
  unfold Board.setStone Board.getStone
  split
  · simp only [Board.isValidPosition]
    split
    · simp [h]
    · rfl
  · rfl

/-- A stone that reads back as non-`NONE` is automatically in bounds. -/
theorem Board.isValidPosition_of_getStone_ne_none (b : Board) (row col : Int)
    (h : b.getStone row col ≠ .NONE) : b.isValidPosition row col = true := by
  unfold Board.getStone at h
  by_cases hv : b.isValidPosition row col = true
  · exact hv
  · simp [hv] at h

/-- The finite set of in-bounds cells of a board (used for counting stones and
for fuel bounds; the TS sources iterate `row`/`col` loops over the same set). -/
def cellsFinset (b : Board) : Finset (Int × Int) :=
  (Finset.range b.height ×ˢ Finset.range b.width).image
    (fun p => ((p.1 : Int), (p.2 : Int)))

theorem mem_cellsFinset (b : Board) (p : Int × Int) :
    p ∈ cellsFinset b ↔ b.isValidPosition p.1 p.2 = true := by
  unfold cellsFinset
  rw [Board.isValidPosition_iff]
  constructor
  · rintro h
    simp only [Finset.mem_image, Finset.mem_product, Finset.mem_range] at h
    obtain ⟨⟨r, c⟩, ⟨hr, hc⟩, hp⟩ := h
    simp only at hr hc
    cases hp
    simp only
    refine ⟨by positivity, by exact_mod_cast hr, by positivity, by exact_mod_cast hc⟩
  · rintro ⟨h1, h2, h3, h4⟩
    simp only [Finset.mem_image, Finset.mem_product, Finset.mem_range]
    refine ⟨(p.1.toNat, p.2.toNat), ⟨?_, ?_⟩, ?_⟩
    · omega
    · omega
    · simp only [Prod.ext_iff]
      constructor <;> simp <;> omega

theorem card_cellsFinset (b : Board) :
    (cellsFinset b).card = b.height * b.width := by
  unfold cellsFinset
  rw [Finset.card_image_of_injective]
  · simp [Finset.card_product]
  · intro x y h
    simp only [Prod.ext_iff] at h ⊢
    exact ⟨by exact_mod_cast h.1, by exact_mod_cast h.2⟩

/-- Number of stones of a given colour on the board (the observable that the
capturing law of the specification talks about). -/
def countStones (b : Board) (s : Stone) : Nat :=
  ((cellsFinset b).filter (fun p => b.getStone p.1 p.2 = s)).card

/-! ### `src/boardParser.ts`

Strings are carried as explicit character lists.  `new Board(w, h)` with a NaN
or negative dimension throws (`Invalid array length` in JS); this is the only
way parsing can fail, and is modelled with `Except String`. -/

/-- `new Board(w, h)` where either dimension may be NaN (`none`). -/
def mkBoardJs (w h : Option Int) : Except String Board :=
  match w, h with
  | some w, some h =>
    if 0 ≤ w ∧ 0 ≤ h then .ok (Board.new w.toNat h.toNat)
    else .error "Invalid array length"
  | _, _ => .error "Invalid array length"

/-- `BoardParser.parseSize`: `"N"` or `"WxH"`; components are JS `parseInt`
results (NaN as `none`). -/
def parseSize (size : List Char) : Option Int × Option Int :=
  if size.contains 'x' then
    match (splitOnChar 'x' size).map (fun s => parseIntJs (trimChars s)) with
    | w :: h :: _ => (w, h)
    | _ => (none, none)
  else
    let n := parseIntJs (trimChars size)
    (n, n)

/-- The `switch` of `BoardParser.parseRowCells` on an upper-cased cell symbol:
`"B"`, `"W"`, and everything else (`"."` included) falls through to
`Stone.NONE`. -/
def cellToStone (cellUpper : List Char) : Stone :=
  if cellUpper = ['B'] then .BLACK
  else if cellUpper = ['W'] then .WHITE
  else .NONE

/-- `BoardParser.parseRowCells`: write the cells of one comma-separated row. -/
def parseRowCells (b : Board) (row : Int) (rowString : List Char) (width : Nat) : Board :=
  let cells := (splitOnChar ',' rowString).map trimChars
  (List.range (min cells.length width)).foldl
    (fun bd (col : Nat) =>
      bd.setStone row (col : Int) (cellToStone ((cells.getD col []).map Char.toUpper)))
    b

/-- Core of `BoardParser.parseRowBigint`, operating on the already-parsed row
value (`none` is NaN; `ToInt32(NaN) = 0`, so NaN behaves as 0 under `>>`). -/
def parseRowBigintValue (b : Board) (row : Int) (rowValue : Option Int) (width : Nat) : Board :=
  let v : Int := rowValue.getD 0
  (List.range width).foldl
    (fun bd (col : Nat) =>
      let bitPosition := (width - 1 - col) * 2
      let stoneBits := jsAnd (jsShr v bitPosition) 3
      let stone : Stone :=
        if stoneBits = 0 then .NONE
        else if stoneBits = 1 then .BLACK
        else if stoneBits = 2 then .WHITE
        else .NONE
      bd.setStone row (col : Int) stone)
    b

/-- `BoardParser.parseRowBigint` (note: despite the name the source uses
`parseInt` and the 32-bit `>>` operator). -/
def parseRowBigint (b : Board) (row : Int) (rowString : List Char) (width : Nat) : Board :=
  parseRowBigintValue b row (parseIntJs rowString) width

/-- `BoardParser.parseLegacyFormat`: comma-separated row integers.
`rowValue.toString()` followed by `parseInt` in the source is the identity on
the parsed value (NaN prints as `"NaN"` and parses back to NaN). -/
def parseLegacyFormat (boardData : List Char) (size : Option (List Char)) :
    Except String Board :=
  let rows := (splitOnChar ',' boardData).map (fun s => parseIntJs (trimChars s))
  let boardSize : Except String (Nat × Nat) :=
    match size with
    | some s =>
      match mkBoardJs (parseSize s).1 (parseSize s).2 with
      | .error e => .error e
      | .ok bd => .ok (bd.width, bd.height)
    | none => .ok (rows.length, rows.length)
  match boardSize with
  | .error e => .error e
  | .ok (w, h) =>
    .ok ((List.range (min rows.length h)).foldl
      (fun bd (row : Nat) => parseRowBigintValue bd (row : Int) (rows.getD row none) w)
      (Board.new w h))

/-- `BoardParser.parseNewFormat`: semicolon-separated rows, each comma-cells or
a packed integer. -/
def parseNewFormat (boardData : List Char) (size : Option (List Char)) :
    Except String Board :=
  let rowStrings := (splitOnChar ';' boardData).map trimChars
  let boardSize : Except String (Nat × Nat) :=
    match size with
    | some s =>
      match mkBoardJs (parseSize s).1 (parseSize s).2 with
      | .error e => .error e
      | .ok bd => .ok (bd.width, bd.height)
    | none =>
      let firstRow := rowStrings.getD 0 []
      if firstRow.contains ',' then
        .ok ((splitOnChar ',' firstRow).length, rowStrings.length)
      else
        .ok (rowStrings.length, rowStrings.length)
  match boardSize with
  | .error e => .error e
  | .ok (w, h) =>
    .ok ((List.range (min rowStrings.length h)).foldl
      (fun bd (row : Nat) =>
        let rowString := rowStrings.getD row []
        if rowString.contains ',' then parseRowCells bd (row : Int) rowString w
        else parseRowBigint bd (row : Int) rowString w)
      (Board.new w h))

/-- `BoardParser.parseBoard`: dispatch on the presence of semicolons. -/
def parseBoard (boardData : List Char) (size : Option (List Char)) :
    Except String Board :=
  if boardData.contains ';' then parseNewFormat boardData size
  else parseLegacyFormat boardData size

/-- `BoardParser.encodeBoard`: pack each row back into an integer using the
JS 32-bit `<<` and `|` operators, exactly as the source does. -/
def encodeBoard (b : Board) : List Int :=
  (List.range b.height).map (fun (row : Nat) =>
    (List.range b.width).foldl
      (fun rowValue (col : Nat) =>
        let stoneBits : Int :=
          match b.getStone (row : Int) (col : Int) with
          | .NONE => 0
          | .BLACK => 1
          | .WHITE => 2
        jsOr rowValue (jsShl stoneBits ((b.width - 1 - col) * 2)))
      0)

/-! ### `src/influence.ts`

JS `number` values are modelled in `ℚ`.  The claims about this module concern
the exact algebraic form of each contribution, which the `ℚ` model captures;
no claim depends on IEEE rounding of the default parameters. -/

inductive Cell where
  | B
  | W
  | dot
deriving DecidableEq, Repr

structure InfluenceParams where
  stoneStrength : ℚ
  decay : ℚ
  /-- `maxDistance?: number`; `none` is `undefined`.  The model restricts the
  optional cutoff to integers (the source always uses integers; a fractional
  cutoff would make the JS `for` loops run on fractional indices). -/
  maxDistance : Option Int
  occlusionFactor : ℚ
  territoryThreshold : ℚ
deriving DecidableEq, Repr

structure TerritoryCount where
  B : Nat
  W : Nat
  neutral : Nat
deriving DecidableEq, Repr

structure InfluenceResult where
  size : Nat
  black : List (List ℚ)
  white : List (List ℚ)
  net : List (List ℚ)
  territory : List (List Cell)
  territoryCount : TerritoryCount
deriving DecidableEq, Repr

structure BoardInput where
  size : Nat
  board : List (List Cell)
deriving DecidableEq, Repr

/-- `assertBoard` from `influence.ts`.  The per-cell symbol check of the source
cannot fail in this typed embedding (every `Cell` is one of the three valid
symbols), so only the height and per-row width checks remain. -/
def assertBoard (input : BoardInput) : Except String Unit :=
  if input.board.length ≠ input.size then .error "board height mismatch"
  else if input.board.any (fun row => decide (row.length ≠ input.size)) then
    .error "board width mismatch"
  else .ok ()

/-- Distance between two naturals (`|a - b|` computed without subtraction
underflow). -/
def natDist (a b : Nat) : Nat := (a - b) + (b - a)

/-- `manhattan(ax, ay, bx, by)` from `influence.ts`. -/
def manhattan (ax ay bx btwo : Nat) : Nat := natDist ax bx + natDist ay btwo

/-- `board[y][x]`; out-of-range JS reads give `undefined`, which compares
unequal to every cell symbol, exactly like the `dot` default here. -/
def cellAt (board : List (List Cell)) (y x : Nat) : Cell :=
  (board.getD y []).getD x Cell.dot

/-- The `while` loop of `occlusionPenalty`.  The loop walks one Manhattan step
per iteration (x-axis first, then y-axis), so it runs for exactly
`manhattan sx sy tx ty` iterations; the first argument is that iteration
counter, which reaches `0` exactly when `(x, y) = (tx, ty)`. -/
def occlusionWalkAux (board : List (List Cell)) (opp : Cell) (sx sy tx ty : Nat) :
    Nat → Nat → Nat → Nat → Nat
  | 0, _, _, blocks => blocks
  | d + 1, x, y, blocks =>
    let p : Nat × Nat :=
      if x ≠ tx then (if x < tx then x + 1 else x - 1, y)
      else (x, if y < ty then y + 1 else y - 1)
    let blocksNext : Nat :=
      if (p.1 = sx ∧ p.2 = sy) ∨ (p.1 = tx ∧ p.2 = ty) then blocks
      else if cellAt board p.2 p.1 = opp then blocks + 1 else blocks
    occlusionWalkAux board opp sx sy tx ty d p.1 p.2 blocksNext

/-- `occlusionPenalty` from `influence.ts` (the `size` parameter is unused in
the source as well). -/
def occlusionPenalty (board : List (List Cell)) (size : Nat) (sx sy tx ty : Nat)
    (stoneColor : Cell) (occlusionFactor : ℚ) : ℚ :=
  let opp : Cell := if stoneColor = Cell.B then Cell.W else Cell.B
  let blocks := occlusionWalkAux board opp sx sy tx ty (manhattan sx sy tx ty) sx sy 0
  if blocks = 0 then 1 else occlusionFactor ^ blocks

/-- One collected stone (`{ x, y, c }` in `computeInfluence`). -/
structure StoneRec where
  x : Nat
  y : Nat
  c : Cell
deriving DecidableEq, Repr

/-- Row-major iteration order of the nested `for (y) for (x)` loops. -/
def cellList (size : Nat) : List (Nat × Nat) :=
  (List.range size).flatMap (fun y => (List.range size).map (fun x => (y, x)))

/-- The stone-collection loop of `computeInfluence`. -/
def stonesList (size : Nat) (board : List (List Cell)) : List StoneRec :=
  (cellList size).filterMap (fun yx =>
    match cellAt board yx.1 yx.2 with
    | Cell.B => some ⟨yx.2, yx.1, Cell.B⟩
    | Cell.W => some ⟨yx.2, yx.1, Cell.W⟩
    | Cell.dot => none)

/-- The mutable `number[][]` accumulation grids, embedded as functions. -/
def Grid : Type := Nat → Nat → ℚ

/-- `grid[y][x] += v`. -/
def gridAdd (g : Grid) (y x : Nat) (v : ℚ) : Grid :=
  fun y2 x2 => if y2 = y ∧ x2 = x then g y2 x2 + v else g y2 x2

/-- The per-stone accumulation loop of `computeInfluence`.  The source clips
the iteration to the bounding box `[sx - maxD, sx + maxD] × [sy - maxD, sy + maxD]`
intersected with the board and then skips cells with `d > maxD`; every
in-board cell with `d ≤ maxD` lies inside that box, so iterating over the
whole board with the same `d > maxD` skip performs exactly the same updates. -/
def addStoneInfluence (board : List (List Cell)) (size : Nat)
    (stoneStrength decay occlusionFactor : ℚ) (maxD : Int) (s : StoneRec)
    (bw : Grid × Grid) : Grid × Grid :=
  (cellList size).foldl
    (fun bw2 yx =>
      let y := yx.1
      let x := yx.2
      let d := manhattan s.x s.y x y
      if (d : Int) > maxD then bw2
      else
        let base := stoneStrength * decay ^ d
        let occ := occlusionPenalty board size s.x s.y x y s.c occlusionFactor
        let contribution := base * occ
        if s.c = Cell.B then (gridAdd bw2.1 y x contribution, bw2.2)
        else (bw2.1, gridAdd bw2.2 y x contribution))
    bw

/-- The influence-accumulation loop over all stones. -/
def influenceAccum (board : List (List Cell)) (size : Nat)
    (stoneStrength decay occlusionFactor : ℚ) (maxD : Int)
    (stones : List StoneRec) : Grid × Grid :=
  stones.foldl
    (fun bw s => addStoneInfluence board size stoneStrength decay occlusionFactor maxD s bw)
    ((fun _ _ => 0), (fun _ _ => 0))

/-- Read the final mutable grid back as the returned `number[][]`. -/
def materializeGrid (size : Nat) (g : Grid) : List (List ℚ) :=
  (List.range size).map (fun y => (List.range size).map (fun x => g y x))

/-- The per-cell territory label of the final labelling loop. -/
def territoryCell (board : List (List Cell)) (netF : Grid) (threshold : ℚ)
    (y x : Nat) : Cell :=
  match cellAt board y x with
  | Cell.B => Cell.B
  | Cell.W => Cell.W
  | Cell.dot =>
    if threshold ≤ netF y x then Cell.B
    else if netF y x ≤ -threshold then Cell.W
    else Cell.dot

/-- The `bTerr`/`wTerr`/`nTerr` counters of the labelling loop. -/
def countTerritory (board : List (List Cell)) (netF : Grid) (threshold : ℚ)
    (size : Nat) : TerritoryCount where
  B := (cellList size).countP (fun yx =>
    decide (cellAt board yx.1 yx.2 = Cell.dot ∧ threshold ≤ netF yx.1 yx.2))
  W := (cellList size).countP (fun yx =>
    decide (cellAt board yx.1 yx.2 = Cell.dot ∧ ¬threshold ≤ netF yx.1 yx.2 ∧
      netF yx.1 yx.2 ≤ -threshold))
  neutral := (cellList size).countP (fun yx =>
    decide (cellAt board yx.1 yx.2 = Cell.dot ∧ ¬threshold ≤ netF yx.1 yx.2 ∧
      ¬netF yx.1 yx.2 ≤ -threshold))

/-- `computeInfluence` from `influence.ts`. -/
def computeInfluence (input : BoardInput) (params : InfluenceParams) :
    Except String InfluenceResult :=
  match assertBoard input with
  | .error e => .error e
  | .ok _ =>
    if ¬(0 < params.decay ∧ params.decay < 1) then
      .error "params.decay must be in (0,1)"
    else if ¬(0 ≤ params.occlusionFactor ∧ params.occlusionFactor ≤ 1) then
      .error "params.occlusionFactor must be in [0,1]"
    else
      let size := input.size
      let board := input.board
      let maxD : Int := params.maxDistance.getD (((size : Int) - 1) * 2)
      let bw := influenceAccum board size params.stoneStrength params.decay
        params.occlusionFactor maxD (stonesList size board)
      let netF : Grid := fun y x => bw.1 y x - bw.2 y x
      .ok
        { size := size
          black := materializeGrid size bw.1
          white := materializeGrid size bw.2
          net := materializeGrid size netF
          territory := (List.range size).map (fun y => (List.range size).map
            (fun x => territoryCell board netF params.territoryThreshold y x))
          territoryCount := countTerritory board netF params.territoryThreshold size }

/-- `DEFAULT_INFLUENCE_PARAMS` (0.82 = 41/50, 0.35 = 7/20, 1.2 = 6/5). -/
def DEFAULT_INFLUENCE_PARAMS : InfluenceParams :=
  { stoneStrength := 10
    decay := 41 / 50
    maxDistance := some 12
    occlusionFactor := 7 / 20
    territoryThreshold := 6 / 5 }

/-! ### `src/influenceAdapter.ts` -/

structure GGSInfluenceResult where
  blackInfluence : List (List ℚ)
  whiteInfluence : List (List ℚ)
  territory : List (List Nat)
deriving DecidableEq, Repr

/-- `InfluenceAdapter.boardToInfluenceInput`: the declared square size is the
board's width, while the rows follow the board's height. -/
def boardToInfluenceInput (b : Board) : BoardInput where
  size := b.width
  board := (List.range b.height).map (fun (row : Nat) =>
    (List.range b.width).map (fun (col : Nat) =>
      match b.getStone (row : Int) (col : Int) with
      | .NONE => Cell.dot
      | .BLACK => Cell.B
      | .WHITE => Cell.W))

/-- `InfluenceAdapter.calculateInfluence`: run the engine on the adapted board
and recode the territory grid as numbers (`B` = 1, `W` = 2, neutral = 0). -/
def calculateInfluence (b : Board) : Except String GGSInfluenceResult :=
  match computeInfluence (boardToInfluenceInput b) DEFAULT_INFLUENCE_PARAMS with
  | .error e => .error e
  | .ok result =>
    .ok
      { blackInfluence := result.black
        whiteInfluence := result.white
        territory := result.territory.map (fun row => row.map (fun cell =>
          match cell with
          | Cell.B => 1
          | Cell.W => 2
          | Cell.dot => 0)) }

/-! ### Declarative description of the occlusion path (from the specification)

The spec describes the occlusion walk as "the single deterministic Manhattan
path that steps fully in one axis and then the other", counting
opposing-colored cells strictly between the two endpoints.  The following
definitions write that path down directly; the theorems below prove that the
source's imperative walk counts exactly these cells. -/

/-- The opposing colour of a stone colour (`stoneColor === "B" ? "W" : "B"`). -/
def oppCell (stoneColor : Cell) : Cell :=
  if stoneColor = Cell.B then Cell.W else Cell.B

/-- The successive values taken by a coordinate stepped one unit at a time
from `a` toward `b` (excluding `a` itself, including `b`). -/
def stepSeq (a b : Nat) : List Nat :=
  if a ≤ b then (List.range (b - a)).map (fun i => a + 1 + i)
  else (List.range (a - b)).map (fun i => a - 1 - i)

/-- The cells visited by the deterministic Manhattan path from `(sx, sy)` to
`(tx, ty)`: first fully along the x-axis, then fully along the y-axis
(excluding the start, including the target). -/
def manhattanPathCells (sx sy tx ty : Nat) : List (Nat × Nat) :=
  (stepSeq sx tx).map (fun x => (x, sy)) ++ (stepSeq sy ty).map (fun y => (tx, y))

/-- The cells strictly between the two endpoints on that path. -/
def betweenCells (sx sy tx ty : Nat) : List (Nat × Nat) :=
  (manhattanPathCells sx sy tx ty).dropLast

/-- The number of opposing-colored cells strictly between the endpoints on the
deterministic Manhattan path — the `k` of the specification. -/
def blockCountSpec (board : List (List Cell)) (opp : Cell) (sx sy tx ty : Nat) : Nat :=
  ((betweenCells sx sy tx ty).filter (fun p => decide (cellAt board p.2 p.1 = opp))).length

/-- Read a grid entry of a returned `number[][]`. -/
def gridAt (g : List (List ℚ)) (y x : Nat) : ℚ :=
  (g.getD y []).getD x 0

/-- The specified contribution of stone `s` to its colour's field at `(tx, ty)`:
`stoneStrength × decay^d × occlusionFactor^k`. -/
def contribSpec (board : List (List Cell)) (stoneStrength decay occlusionFactor : ℚ)
    (s : StoneRec) (tx ty : Nat) : ℚ :=
  stoneStrength * decay ^ manhattan s.x s.y tx ty *
    occlusionFactor ^ blockCountSpec board (oppCell s.c) s.x s.y tx ty

theorem stepSeq_self (a : Nat) : stepSeq a a = [] := by
  simp [stepSeq]

theorem stepSeq_eq_nil_iff (a b : Nat) : stepSeq a b = [] ↔ a = b := by
  unfold stepSeq
  split_ifs with h
  · simp
    omega
  · simp
    omega

theorem stepSeq_cons (a b : Nat) (h : a ≠ b) :
    stepSeq a b = (if a < b then a + 1 else a - 1) ::
      stepSeq (if a < b then a + 1 else a - 1) b := by
  rcases Nat.lt_or_ge a b with hlt | hge
  · rw [if_pos hlt]
    unfold stepSeq
    rw [if_pos (show a ≤ b by omega), if_pos (show a + 1 ≤ b by omega)]
    rw [show b - a = (b - (a + 1)) + 1 from by omega, List.range_succ_eq_map,
      List.map_cons, List.map_map]
    congr 1
    apply List.map_congr_left
    intro i _
    simp only [Function.comp]
    omega
  · have hgt : b < a := by omega
    rw [if_neg (show ¬a < b by omega)]
    unfold stepSeq
    rw [if_neg (show ¬a ≤ b by omega)]
    by_cases hb : a - 1 = b
    · rw [if_pos (show a - 1 ≤ b by omega)]
      rw [show a - b = 1 from by omega, show b - (a - 1) = 0 from by omega]
      simp [List.range_succ_eq_map]
    · rw [if_neg (show ¬a - 1 ≤ b by omega)]
      rw [show a - b = (a - 1 - b) + 1 from by omega, List.range_succ_eq_map,
        List.map_cons, List.map_map]
      congr 1
      apply List.map_congr_left
      intro i _
      simp only [Function.comp]
      omega

theorem stepSeq_ne_start (a b : Nat) : ∀ x2 ∈ stepSeq a b, x2 ≠ a := by
  intro x2 hx2
  unfold stepSeq at hx2
  split_ifs at hx2 with h
  · obtain ⟨i, hi, hx⟩ := List.mem_map.mp hx2
    omega
  · obtain ⟨i, hi, hx⟩ := List.mem_map.mp hx2
    simp only [List.mem_range] at hi
    omega

theorem stepSeq_dropLast_append (a b : Nat) (h : a ≠ b) :
    stepSeq a b = (stepSeq a b).dropLast ++ [b] := by
  generalize hn : natDist a b = n
  induction n generalizing a with
  | zero => exact absurd (by unfold natDist at hn; omega) h
  | succ n ih =>
    rw [stepSeq_cons a b h]
    by_cases h2 : (if a < b then a + 1 else a - 1) = b
    · rw [h2, stepSeq_self]
      rfl
    · have hn2 : natDist (if a < b then a + 1 else a - 1) b = n := by
        unfold natDist at hn ⊢
        split_ifs with hl
        · omega
        · omega
      have := ih _ h2 hn2
      rw [List.dropLast_cons_of_ne_nil (by rw [this]; simp)]
      rw [List.cons_append, ← this]

theorem stepSeq_dropLast_ne_end (a b : Nat) :
    ∀ x2 ∈ (stepSeq a b).dropLast, x2 ≠ b := by
  generalize hn : natDist a b = n
  induction n generalizing a with
  | zero =>
    have : a = b := by unfold natDist at hn; omega
    subst this
    rw [stepSeq_self]
    intro x2 hx2
    simp at hx2
  | succ n ih =>
    have hab : a ≠ b := by unfold natDist at hn; omega
    rw [stepSeq_cons a b hab]
    set a2 := if a < b then a + 1 else a - 1 with ha2
    have hn2 : natDist a2 b = n := by
      unfold natDist at hn ⊢
      rw [ha2]
      split_ifs with hl
      · omega
      · omega
    by_cases h2 : a2 = b
    · rw [h2, stepSeq_self]
      intro x2 hx2
      simp at hx2
    · rw [List.dropLast_cons_of_ne_nil (by
        intro hcon
        exact h2 ((stepSeq_eq_nil_iff a2 b).mp hcon))]
      intro x2 hx2
      rcases List.mem_cons.mp hx2 with h3 | h3
      · rw [h3]
        exact h2
      · exact ih a2 hn2 x2 h3

/-- The y-axis phase of the occlusion walk: starting at `(tx, y)` with
`natDist y ty` iterations left, the walk adds one block for every
opposing-coloured cell on the remaining path, except the final target cell and
(when the line is vertical) the start cell. -/
theorem occlusionWalk_y (board : List (List Cell)) (opp : Cell) (sx sy tx ty : Nat) :
    ∀ (n y blocks : Nat), natDist y ty = n →
      occlusionWalkAux board opp sx sy tx ty n tx y blocks =
        blocks + ((stepSeq y ty).dropLast.filter (fun y2 =>
          decide (¬(tx = sx ∧ y2 = sy) ∧ cellAt board y2 tx = opp))).length := by
  intro n
  induction n with
  | zero =>
    intro y blocks hd
    have hy : y = ty := by unfold natDist at hd; omega
    subst hy
    rw [stepSeq_self]
    rfl
  | succ n ih =>
    intro y blocks hd
    have hne : y ≠ ty := by unfold natDist at hd; omega
    have hstep : occlusionWalkAux board opp sx sy tx ty (n + 1) tx y blocks =
        occlusionWalkAux board opp sx sy tx ty n tx (if y < ty then y + 1 else y - 1)
          (if (tx = sx ∧ (if y < ty then y + 1 else y - 1) = sy) ∨
              (tx = tx ∧ (if y < ty then y + 1 else y - 1) = ty) then blocks
            else if cellAt board (if y < ty then y + 1 else y - 1) tx = opp then blocks + 1
            else blocks) := by
      rw [occlusionWalkAux]
      rw [if_neg (show ¬(tx ≠ tx) from by simp)]
    rw [hstep]
    set y2 := if y < ty then y + 1 else y - 1 with hy2
    have hd2 : natDist y2 ty = n := by
      unfold natDist at hd ⊢
      rw [hy2]
      split_ifs with hl
      · omega
      · omega
    rw [stepSeq_cons y ty hne, ← hy2]
    by_cases hend : y2 = ty
    · rw [if_pos (Or.inr ⟨rfl, hend⟩)]
      rw [ih y2 blocks hd2]
      rw [hend, stepSeq_self]
      rfl
    · rw [List.dropLast_cons_of_ne_nil (fun hcon => hend ((stepSeq_eq_nil_iff y2 ty).mp hcon))]
      rw [List.filter_cons]
      by_cases hskip : tx = sx ∧ y2 = sy
      · rw [if_pos (Or.inl hskip)]
        rw [if_neg (show ¬(decide (¬(tx = sx ∧ y2 = sy) ∧ cellAt board y2 tx = opp) = true)
          from by simp; tauto)]
        exact ih y2 blocks hd2
      · rw [if_neg (show ¬((tx = sx ∧ y2 = sy) ∨ (tx = tx ∧ y2 = ty)) from by
          rintro (h1 | h2)
          · exact hskip h1
          · exact hend h2.2)]
        by_cases hopp : cellAt board y2 tx = opp
        · rw [if_pos hopp]
          rw [if_pos (show decide (¬(tx = sx ∧ y2 = sy) ∧ cellAt board y2 tx = opp) = true
            from by simp; tauto)]
          rw [ih y2 (blocks + 1) hd2]
          rw [List.length_cons]
          omega
        · rw [if_neg hopp]
          rw [if_neg (show ¬(decide (¬(tx = sx ∧ y2 = sy) ∧ cellAt board y2 tx = opp) = true)
            from by simp; tauto)]
          exact ih y2 blocks hd2

/-- The x-axis phase of the occlusion walk: starting at `(x, sy)`, the walk
first runs along the x-axis and then continues with the y-axis phase. -/
theorem occlusionWalk_x (board : List (List Cell)) (opp : Cell) (sx sy tx ty : Nat) :
    ∀ (n x blocks : Nat), natDist x tx = n →
      occlusionWalkAux board opp sx sy tx ty (n + natDist sy ty) x sy blocks =
        blocks +
          ((stepSeq x tx).filter (fun x2 =>
            decide (¬(x2 = sx) ∧ ¬(x2 = tx ∧ sy = ty) ∧ cellAt board sy x2 = opp))).length +
          ((stepSeq sy ty).dropLast.filter (fun y2 =>
            decide (¬(tx = sx ∧ y2 = sy) ∧ cellAt board y2 tx = opp))).length := by
  intro n
  induction n with
  | zero =>
    intro x blocks hd
    have hx : x = tx := by unfold natDist at hd; omega
    subst hx
    rw [stepSeq_self]
    rw [show (0 + natDist sy ty) = natDist sy ty from by omega]
    rw [occlusionWalk_y board opp sx sy x ty (natDist sy ty) sy blocks rfl]
    simp
  | succ n ih =>
    intro x blocks hd
    have hne : x ≠ tx := by unfold natDist at hd; omega
    have hstep : occlusionWalkAux board opp sx sy tx ty (n + natDist sy ty + 1) x sy blocks =
        occlusionWalkAux board opp sx sy tx ty (n + natDist sy ty)
          (if x < tx then x + 1 else x - 1) sy
          (if ((if x < tx then x + 1 else x - 1) = sx ∧ sy = sy) ∨
              ((if x < tx then x + 1 else x - 1) = tx ∧ sy = ty) then blocks
            else if cellAt board sy (if x < tx then x + 1 else x - 1) = opp then blocks + 1
            else blocks) := by
      rw [show n + natDist sy ty + 1 = (n + natDist sy ty) + 1 from rfl]
      rw [occlusionWalkAux]
      rw [if_pos (show x ≠ tx from hne)]
    rw [show (n + 1 + natDist sy ty) = (n + natDist sy ty) + 1 from by omega, hstep]
    set x2 := if x < tx then x + 1 else x - 1 with hx2
    have hd2 : natDist x2 tx = n := by
      unfold natDist at hd ⊢
      rw [hx2]
      split_ifs with hl
      · omega
      · omega
    rw [stepSeq_cons x tx hne, ← hx2]
    rw [List.filter_cons]
    by_cases hskip : (x2 = sx ∧ sy = sy) ∨ (x2 = tx ∧ sy = ty)
    · rw [if_pos hskip]
      rw [if_neg (show ¬(decide (¬(x2 = sx) ∧ ¬(x2 = tx ∧ sy = ty) ∧
          cellAt board sy x2 = opp) = true) from by
        simp only [decide_eq_true_eq]
        rintro ⟨ha, hb, _⟩
        rcases hskip with h1 | h2
        · exact ha h1.1
        · exact hb h2)]
      exact ih x2 blocks hd2
    · rw [if_neg hskip]
      have hnsx : ¬(x2 = sx) := fun hcon => hskip (Or.inl ⟨hcon, rfl⟩)
      have hnst : ¬(x2 = tx ∧ sy = ty) := fun hcon => hskip (Or.inr hcon)
      by_cases hopp : cellAt board sy x2 = opp
      · rw [if_pos hopp]
        rw [if_pos (show decide (¬(x2 = sx) ∧ ¬(x2 = tx ∧ sy = ty) ∧
            cellAt board sy x2 = opp) = true from by
          simp only [decide_eq_true_eq]
          exact ⟨hnsx, hnst, hopp⟩)]
        rw [ih x2 (blocks + 1) hd2]
        rw [List.length_cons]
        omega
      · rw [if_neg hopp]
        rw [if_neg (show ¬(decide (¬(x2 = sx) ∧ ¬(x2 = tx ∧ sy = ty) ∧
            cellAt board sy x2 = opp) = true) from by
          simp only [decide_eq_true_eq]
          intro hcon
          exact hopp hcon.2.2)]
        exact ih x2 blocks hd2

/-- The occlusion walk of the source counts exactly the opposing-coloured
cells strictly between the endpoints on the deterministic x-then-y Manhattan
path. -/
theorem occlusionWalk_spec (board : List (List Cell)) (opp : Cell) (sx sy tx ty : Nat) :
    occlusionWalkAux board opp sx sy tx ty (manhattan sx sy tx ty) sx sy 0 =
      blockCountSpec board opp sx sy tx ty := by
  rw [show manhattan sx sy tx ty = natDist sx tx + natDist sy ty from rfl]
  rw [occlusionWalk_x board opp sx sy tx ty (natDist sx tx) sx 0 rfl]
  unfold blockCountSpec betweenCells manhattanPathCells
  by_cases hyt : sy = ty
  · rw [(stepSeq_eq_nil_iff sy ty).mpr hyt]
    simp only [List.map_nil, List.append_nil, List.dropLast_nil, List.filter_nil,
      List.length_nil, Nat.add_zero, Nat.zero_add]
    rw [← List.map_dropLast, List.filter_map, List.length_map]
    by_cases hxt : sx = tx
    · rw [(stepSeq_eq_nil_iff sx tx).mpr hxt]
      simp
    · rw [stepSeq_dropLast_append sx tx hxt, List.filter_append]
      rw [List.filter_cons, List.filter_nil]
      rw [if_neg (show ¬(decide (¬(tx = sx) ∧ ¬(tx = tx ∧ sy = ty) ∧
          cellAt board sy tx = opp) = true) from by
        simp only [decide_eq_true_eq]
        intro h
        exact h.2.1 ⟨by simp, by simp [hyt]⟩)]
      rw [List.dropLast_concat, List.append_nil]
      apply congrArg
      apply List.filter_congr
      intro x2 hx2
      have h1 : x2 ≠ sx := stepSeq_ne_start sx tx x2 (List.dropLast_subset _ hx2)
      have h2 : x2 ≠ tx := stepSeq_dropLast_ne_end sx tx x2 hx2
      simp [Function.comp, h1, h2]
  · have hB : (stepSeq sy ty).map (fun y => (tx, y)) ≠ [] := by
      intro hcon
      rw [List.map_eq_nil_iff] at hcon
      exact hyt ((stepSeq_eq_nil_iff sy ty).mp hcon)
    rw [List.dropLast_append_of_ne_nil _ hB, List.filter_append, List.length_append]
    rw [Nat.zero_add]
    congr 1
    · rw [List.filter_map, List.length_map]
      apply congrArg
      apply List.filter_congr
      intro x2 hx2
      have h1 : x2 ≠ sx := stepSeq_ne_start sx tx x2 hx2
      simp [Function.comp, h1, hyt]
    · rw [← List.map_dropLast, List.filter_map, List.length_map]
      apply congrArg
      apply List.filter_congr
      intro y2 hy2
      have h1 : y2 ≠ sy := stepSeq_ne_start sy ty y2 (List.dropLast_subset _ hy2)
      simp [Function.comp, h1]

/-- `occlusionPenalty` returns exactly `occlusionFactor ^ k` where `k` is the
specified between-cells block count (the `blocks = 0` special case coincides
with `occlusionFactor ^ 0 = 1`). -/
theorem occlusionPenalty_spec (board : List (List Cell)) (size : Nat)
    (sx sy tx ty : Nat) (stoneColor : Cell) (occlusionFactor : ℚ) :
    occlusionPenalty board size sx sy tx ty stoneColor occlusionFactor =
      occlusionFactor ^ blockCountSpec board (oppCell stoneColor) sx sy tx ty := by
  simp only [occlusionPenalty]
  rw [show (if stoneColor = Cell.B then Cell.W else Cell.B) = oppCell stoneColor from rfl]
  rw [occlusionWalk_spec]
  by_cases h : blockCountSpec board (oppCell stoneColor) sx sy tx ty = 0
  · rw [if_pos h, h, pow_zero]
  · rw [if_neg h]

theorem count_range_eq (x n : Nat) :
    (List.range n).count x = if x < n then 1 else 0 := by
  induction n with
  | zero => simp
  | succ n ih =>
    rw [List.range_succ, List.count_append, ih]
    have : List.count x [n] = if n = x then 1 else 0 := by
      rw [show [n] = n :: ([] : List Nat) from rfl, List.count_cons]
      simp [beq_iff_eq]
    rw [this]
    split_ifs <;> omega

theorem count_pair_row (y2 : Nat) (xs : List Nat) (y x : Nat) :
    (xs.map (fun x2 => (y2, x2))).count (y, x) =
      if y2 = y then xs.count x else 0 := by
  induction xs with
  | nil => simp
  | cons a t ih =>
    rw [List.map_cons, List.count_cons, ih, List.count_cons]
    have : (((y2, a) : Nat × Nat) == (y, x)) = (decide (y2 = y) && decide (a = x)) := by
      by_cases h1 : y2 = y
      · by_cases h2 : a = x
        · subst h1
          subst h2
          simp
        · simp [h1, h2, Prod.ext_iff]
      · simp [h1, Prod.ext_iff]
    rw [this]
    by_cases h1 : y2 = y
    · by_cases h2 : a = x
      · simp [h1, h2]
      · simp [h1, h2]
    · simp [h1]

theorem count_flatMap_pairs (ys : List Nat) (size y x : Nat) :
    (ys.flatMap (fun y2 => (List.range size).map (fun x2 => (y2, x2)))).count (y, x) =
      ys.count y * (List.range size).count x := by
  induction ys with
  | nil => simp
  | cons a t ih =>
    rw [List.flatMap_cons, List.count_append, ih, count_pair_row, List.count_cons]
    by_cases h1 : a = y
    · simp only [if_pos h1, h1, beq_self_eq_true, if_true]
      ring
    · simp only [if_neg h1, beq_iff_eq, h1, if_false]
      ring

theorem count_cellList (size y x : Nat) :
    (cellList size).count (y, x) = if y < size ∧ x < size then 1 else 0 := by
  unfold cellList
  rw [count_flatMap_pairs, count_range_eq, count_range_eq]
  split_ifs <;> omega

/-- Effect of the per-stone inner accumulation loop on the black grid. -/
theorem influence_step_fold_fst (board : List (List Cell)) (size : Nat)
    (stoneStrength decay occlusionFactor : ℚ) (maxD : Int) (s : StoneRec) :
    ∀ (l : List (Nat × Nat)) (bw : Grid × Grid) (y x : Nat),
      (l.foldl (fun bw2 yx =>
        let y := yx.1
        let x := yx.2
        let d := manhattan s.x s.y x y
        if (d : Int) > maxD then bw2
        else
          let base := stoneStrength * decay ^ d
          let occ := occlusionPenalty board size s.x s.y x y s.c occlusionFactor
          let contribution := base * occ
          if s.c = Cell.B then (gridAdd bw2.1 y x contribution, bw2.2)
          else (bw2.1, gridAdd bw2.2 y x contribution)) bw).1 y x =
      bw.1 y x + (l.count (y, x) : ℚ) *
        (if s.c = Cell.B ∧ ¬((manhattan s.x s.y x y : Int) > maxD) then
          stoneStrength * decay ^ manhattan s.x s.y x y *
            occlusionPenalty board size s.x s.y x y s.c occlusionFactor
        else 0) := by
  intro l
  induction l with
  | nil =>
    intro bw y x
    simp
  | cons a t ih =>
    intro bw y x
    rw [List.foldl_cons, ih, List.count_cons]
    have hstep : ((fun (bw2 : Grid × Grid) (yx : Nat × Nat) =>
        let y := yx.1
        let x := yx.2
        let d := manhattan s.x s.y x y
        if (d : Int) > maxD then bw2
        else
          let base := stoneStrength * decay ^ d
          let occ := occlusionPenalty board size s.x s.y x y s.c occlusionFactor
          let contribution := base * occ
          if s.c = Cell.B then (gridAdd bw2.1 y x contribution, bw2.2)
          else (bw2.1, gridAdd bw2.2 y x contribution)) bw a).1 y x =
        bw.1 y x + (if a = (y, x) then
          (if s.c = Cell.B ∧ ¬((manhattan s.x s.y x y : Int) > maxD) then
            stoneStrength * decay ^ manhattan s.x s.y x y *
              occlusionPenalty board size s.x s.y x y s.c occlusionFactor
          else 0) else 0) := by
      by_cases hd : ((manhattan s.x s.y a.2 a.1 : Int) > maxD)
      · rw [show ((fun (bw2 : Grid × Grid) (yx : Nat × Nat) =>
            let y := yx.1
            let x := yx.2
            let d := manhattan s.x s.y x y
            if (d : Int) > maxD then bw2
            else
              let base := stoneStrength * decay ^ d
              let occ := occlusionPenalty board size s.x s.y x y s.c occlusionFactor
              let contribution := base * occ
              if s.c = Cell.B then (gridAdd bw2.1 y x contribution, bw2.2)
              else (bw2.1, gridAdd bw2.2 y x contribution)) bw a) = bw from by
          simp only
          rw [if_pos hd]]
        by_cases ha : a = (y, x)
        · rw [if_pos ha]
          rw [if_neg (show ¬(s.c = Cell.B ∧ ¬((manhattan s.x s.y x y : Int) > maxD)) from by
            rintro ⟨_, hcon⟩
            rw [ha] at hd
            simp only at hd
            exact hcon hd)]
          simp
        · rw [if_neg ha]
          simp
      · by_cases hB : s.c = Cell.B
        · rw [show ((fun (bw2 : Grid × Grid) (yx : Nat × Nat) =>
              let y := yx.1
              let x := yx.2
              let d := manhattan s.x s.y x y
              if (d : Int) > maxD then bw2
              else
                let base := stoneStrength * decay ^ d
                let occ := occlusionPenalty board size s.x s.y x y s.c occlusionFactor
                let contribution := base * occ
                if s.c = Cell.B then (gridAdd bw2.1 y x contribution, bw2.2)
                else (bw2.1, gridAdd bw2.2 y x contribution)) bw a) =
            (gridAdd bw.1 a.1 a.2 (stoneStrength * decay ^ manhattan s.x s.y a.2 a.1 *
              occlusionPenalty board size s.x s.y a.2 a.1 s.c occlusionFactor), bw.2) from by
            simp only
            rw [if_neg hd, if_pos hB]]
          unfold gridAdd
          simp only
          by_cases ha : a = (y, x)
          · rw [if_pos (show y = a.1 ∧ x = a.2 from by rw [ha]; exact ⟨rfl, rfl⟩)]
            rw [if_pos ha]
            rw [if_pos (show s.c = Cell.B ∧ ¬((manhattan s.x s.y x y : Int) > maxD) from by
              constructor
              · exact hB
              · rw [show x = a.2 from by rw [ha], show y = a.1 from by rw [ha]]
                exact hd)]
            rw [show a.2 = x from by rw [ha], show a.1 = y from by rw [ha]]
          · rw [if_neg (show ¬(y = a.1 ∧ x = a.2) from by
              rintro ⟨h1, h2⟩
              exact ha (by rw [Prod.ext_iff]; exact ⟨h1.symm, h2.symm⟩))]
            rw [if_neg ha]
            simp
        · rw [show ((fun (bw2 : Grid × Grid) (yx : Nat × Nat) =>
              let y := yx.1
              let x := yx.2
              let d := manhattan s.x s.y x y
              if (d : Int) > maxD then bw2
              else
                let base := stoneStrength * decay ^ d
                let occ := occlusionPenalty board size s.x s.y x y s.c occlusionFactor
                let contribution := base * occ
                if s.c = Cell.B then (gridAdd bw2.1 y x contribution, bw2.2)
                else (bw2.1, gridAdd bw2.2 y x contribution)) bw a) =
            (bw.1, gridAdd bw.2 a.1 a.2 (stoneStrength * decay ^ manhattan s.x s.y a.2 a.1 *
              occlusionPenalty board size s.x s.y a.2 a.1 s.c occlusionFactor)) from by
            simp only
            rw [if_neg hd, if_neg hB]]
          simp only
          by_cases ha : a = (y, x)
          · rw [if_pos ha]
            rw [if_neg (show ¬(s.c = Cell.B ∧ ¬((manhattan s.x s.y x y : Int) > maxD)) from by
              rintro ⟨hcon, _⟩
              exact hB hcon)]
            simp
          · rw [if_neg ha]
            simp
    rw [hstep]
    by_cases ha : a = (y, x)
    · rw [if_pos ha, if_pos (show (a == (y, x)) = true from by
        rw [ha]
        exact beq_self_eq_true _)]
      push_cast
      ring
    · rw [if_neg ha, if_neg (show ¬((a == (y, x)) = true) from by
        intro hcon
        exact ha (eq_of_beq hcon))]
      push_cast
      ring

/-- Effect of the per-stone inner accumulation loop on the white grid. -/
theorem influence_step_fold_snd (board : List (List Cell)) (size : Nat)
    (stoneStrength decay occlusionFactor : ℚ) (maxD : Int) (s : StoneRec) :
    ∀ (l : List (Nat × Nat)) (bw : Grid × Grid) (y x : Nat),
      (l.foldl (fun bw2 yx =>
        let y := yx.1
        let x := yx.2
        let d := manhattan s.x s.y x y
        if (d : Int) > maxD then bw2
        else
          let base := stoneStrength * decay ^ d
          let occ := occlusionPenalty board size s.x s.y x y s.c occlusionFactor
          let contribution := base * occ
          if s.c = Cell.B then (gridAdd bw2.1 y x contribution, bw2.2)
          else (bw2.1, gridAdd bw2.2 y x contribution)) bw).2 y x =
      bw.2 y x + (l.count (y, x) : ℚ) *
        (if ¬(s.c = Cell.B) ∧ ¬((manhattan s.x s.y x y : Int) > maxD) then
          stoneStrength * decay ^ manhattan s.x s.y x y *
            occlusionPenalty board size s.x s.y x y s.c occlusionFactor
        else 0) := by
  intro l
  induction l with
  | nil =>
    intro bw y x
    simp
  | cons a t ih =>
    intro bw y x
    rw [List.foldl_cons, ih, List.count_cons]
    have hstep : ((fun (bw2 : Grid × Grid) (yx : Nat × Nat) =>
        let y := yx.1
        let x := yx.2
        let d := manhattan s.x s.y x y
        if (d : Int) > maxD then bw2
        else
          let base := stoneStrength * decay ^ d
          let occ := occlusionPenalty board size s.x s.y x y s.c occlusionFactor
          let contribution := base * occ
          if s.c = Cell.B then (gridAdd bw2.1 y x contribution, bw2.2)
          else (bw2.1, gridAdd bw2.2 y x contribution)) bw a).2 y x =
        bw.2 y x + (if a = (y, x) then
          (if ¬(s.c = Cell.B) ∧ ¬((manhattan s.x s.y x y : Int) > maxD) then
            stoneStrength * decay ^ manhattan s.x s.y x y *
              occlusionPenalty board size s.x s.y x y s.c occlusionFactor
          else 0) else 0) := by
      by_cases hd : ((manhattan s.x s.y a.2 a.1 : Int) > maxD)
      · rw [show ((fun (bw2 : Grid × Grid) (yx : Nat × Nat) =>
            let y := yx.1
            let x := yx.2
            let d := manhattan s.x s.y x y
            if (d : Int) > maxD then bw2
            else
              let base := stoneStrength * decay ^ d
              let occ := occlusionPenalty board size s.x s.y x y s.c occlusionFactor
              let contribution := base * occ
              if s.c = Cell.B then (gridAdd bw2.1 y x contribution, bw2.2)
              else (bw2.1, gridAdd bw2.2 y x contribution)) bw a) = bw from by
          simp only
          rw [if_pos hd]]
        by_cases ha : a = (y, x)
        · rw [if_pos ha]
          rw [if_neg (show ¬(¬(s.c = Cell.B) ∧ ¬((manhattan s.x s.y x y : Int) > maxD)) from by
            rintro ⟨_, hcon⟩
            rw [ha] at hd
            simp only at hd
            exact hcon hd)]
          simp
        · rw [if_neg ha]
          simp
      · by_cases hB : s.c = Cell.B
        · rw [show ((fun (bw2 : Grid × Grid) (yx : Nat × Nat) =>
              let y := yx.1
              let x := yx.2
              let d := manhattan s.x s.y x y
              if (d : Int) > maxD then bw2
              else
                let base := stoneStrength * decay ^ d
                let occ := occlusionPenalty board size s.x s.y x y s.c occlusionFactor
                let contribution := base * occ
                if s.c = Cell.B then (gridAdd bw2.1 y x contribution, bw2.2)
                else (bw2.1, gridAdd bw2.2 y x contribution)) bw a) =
            (gridAdd bw.1 a.1 a.2 (stoneStrength * decay ^ manhattan s.x s.y a.2 a.1 *
              occlusionPenalty board size s.x s.y a.2 a.1 s.c occlusionFactor), bw.2) from by
            simp only
            rw [if_neg hd, if_pos hB]]
          simp only
          by_cases ha : a = (y, x)
          · rw [if_pos ha]
            rw [if_neg (show ¬(¬(s.c = Cell.B) ∧ ¬((manhattan s.x s.y x y : Int) > maxD)) from by
              rintro ⟨hcon, _⟩
              exact hcon hB)]
            simp
          · rw [if_neg ha]
            simp
        · rw [show ((fun (bw2 : Grid × Grid) (yx : Nat × Nat) =>
              let y := yx.1
              let x := yx.2
              let d := manhattan s.x s.y x y
              if (d : Int) > maxD then bw2
              else
                let base := stoneStrength * decay ^ d
                let occ := occlusionPenalty board size s.x s.y x y s.c occlusionFactor
                let contribution := base * occ
                if s.c = Cell.B then (gridAdd bw2.1 y x contribution, bw2.2)
                else (bw2.1, gridAdd bw2.2 y x contribution)) bw a) =
            (bw.1, gridAdd bw.2 a.1 a.2 (stoneStrength * decay ^ manhattan s.x s.y a.2 a.1 *
              occlusionPenalty board size s.x s.y a.2 a.1 s.c occlusionFactor)) from by
            simp only
            rw [if_neg hd, if_neg hB]]
          unfold gridAdd
          simp only
          by_cases ha : a = (y, x)
          · rw [if_pos (show y = a.1 ∧ x = a.2 from by rw [ha]; exact ⟨rfl, rfl⟩)]
            rw [if_pos ha]
            rw [if_pos (show ¬(s.c = Cell.B) ∧ ¬((manhattan s.x s.y x y : Int) > maxD) from by
              constructor
              · exact hB
              · rw [show x = a.2 from by rw [ha], show y = a.1 from by rw [ha]]
                exact hd)]
            rw [show a.2 = x from by rw [ha], show a.1 = y from by rw [ha]]
          · rw [if_neg (show ¬(y = a.1 ∧ x = a.2) from by
              rintro ⟨h1, h2⟩
              exact ha (by rw [Prod.ext_iff]; exact ⟨h1.symm, h2.symm⟩))]
            rw [if_neg ha]
            simp
    rw [hstep]
    by_cases ha : a = (y, x)
    · rw [if_pos ha, if_pos (show (a == (y, x)) = true from by
        rw [ha]
        exact beq_self_eq_true _)]
      push_cast
      ring
    · rw [if_neg ha, if_neg (show ¬((a == (y, x)) = true) from by
        intro hcon
        exact ha (eq_of_beq hcon))]
      push_cast
      ring

/-- Effect of one whole stone on the black grid at an in-board cell. -/
theorem addStoneInfluence_fst (board : List (List Cell)) (size : Nat)
    (stoneStrength decay occlusionFactor : ℚ) (maxD : Int) (s : StoneRec)
    (bw : Grid × Grid) (y x : Nat) (hy : y < size) (hx : x < size) :
    (addStoneInfluence board size stoneStrength decay occlusionFactor maxD s bw).1 y x =
      bw.1 y x +
        (if s.c = Cell.B ∧ ¬((manhattan s.x s.y x y : Int) > maxD) then
          stoneStrength * decay ^ manhattan s.x s.y x y *
            occlusionPenalty board size s.x s.y x y s.c occlusionFactor
        else 0) := by
  unfold addStoneInfluence
  rw [influence_step_fold_fst board size stoneStrength decay occlusionFactor maxD s
    (cellList size) bw y x]
  rw [count_cellList, if_pos ⟨hy, hx⟩]
  push_cast
  ring

/-- Effect of one whole stone on the white grid at an in-board cell. -/
theorem addStoneInfluence_snd (board : List (List Cell)) (size : Nat)
    (stoneStrength decay occlusionFactor : ℚ) (maxD : Int) (s : StoneRec)
    (bw : Grid × Grid) (y x : Nat) (hy : y < size) (hx : x < size) :
    (addStoneInfluence board size stoneStrength decay occlusionFactor maxD s bw).2 y x =
      bw.2 y x +
        (if ¬(s.c = Cell.B) ∧ ¬((manhattan s.x s.y x y : Int) > maxD) then
          stoneStrength * decay ^ manhattan s.x s.y x y *
            occlusionPenalty board size s.x s.y x y s.c occlusionFactor
        else 0) := by
  unfold addStoneInfluence
  rw [influence_step_fold_snd board size stoneStrength decay occlusionFactor maxD s
    (cellList size) bw y x]
  rw [count_cellList, if_pos ⟨hy, hx⟩]
  push_cast
  ring

/-- The accumulated black field is the sum of the per-stone contributions. -/
theorem influenceAccum_fst (board : List (List Cell)) (size : Nat)
    (stoneStrength decay occlusionFactor : ℚ) (maxD : Int) :
    ∀ (stones : List StoneRec) (bw : Grid × Grid) (y x : Nat),
      y < size → x < size →
      (stones.foldl (fun bw s =>
        addStoneInfluence board size stoneStrength decay occlusionFactor maxD s bw) bw).1 y x =
      bw.1 y x + (stones.map (fun s =>
        if s.c = Cell.B ∧ ¬((manhattan s.x s.y x y : Int) > maxD) then
          stoneStrength * decay ^ manhattan s.x s.y x y *
            occlusionPenalty board size s.x s.y x y s.c occlusionFactor
        else 0)).sum := by
  intro stones
  induction stones with
  | nil =>
    intro bw y x _ _
    simp
  | cons s t ih =>
    intro bw y x hy hx
    rw [List.foldl_cons, ih _ y x hy hx,
      addStoneInfluence_fst board size stoneStrength decay occlusionFactor maxD s bw y x hy hx,
      List.map_cons, List.sum_cons]
    ring

/-- The accumulated white field is the sum of the per-stone contributions. -/
theorem influenceAccum_snd (board : List (List Cell)) (size : Nat)
    (stoneStrength decay occlusionFactor : ℚ) (maxD : Int) :
    ∀ (stones : List StoneRec) (bw : Grid × Grid) (y x : Nat),
      y < size → x < size →
      (stones.foldl (fun bw s =>
        addStoneInfluence board size stoneStrength decay occlusionFactor maxD s bw) bw).2 y x =
      bw.2 y x + (stones.map (fun s =>
        if ¬(s.c = Cell.B) ∧ ¬((manhattan s.x s.y x y : Int) > maxD) then
          stoneStrength * decay ^ manhattan s.x s.y x y *
            occlusionPenalty board size s.x s.y x y s.c occlusionFactor
        else 0)).sum := by
  intro stones
  induction stones with
  | nil =>
    intro bw y x _ _
    simp
  | cons s t ih =>
    intro bw y x hy hx
    rw [List.foldl_cons, ih _ y x hy hx,
      addStoneInfluence_snd board size stoneStrength decay occlusionFactor maxD s bw y x hy hx,
      List.map_cons, List.sum_cons]
    ring

theorem gridAt_materializeGrid (size : Nat) (g : Grid) (y x : Nat)
    (hy : y < size) (hx : x < size) :
    gridAt (materializeGrid size g) y x = g y x := by
  have houter : (List.map (fun y2 => List.map (fun x2 => g y2 x2) (List.range size))
      (List.range size)).getD y [] = List.map (fun x2 => g y x2) (List.range size) := by
    rw [List.getD_eq_getElem?_getD, List.getElem?_map, List.getElem?_range hy]
    rfl
  unfold gridAt materializeGrid
  rw [houter, List.getD_eq_getElem?_getD, List.getElem?_map, List.getElem?_range hx]
  rfl

/-- Every stone collected by `stonesList` is black or white. -/
theorem stonesList_colors (size : Nat) (board : List (List Cell)) :
    ∀ s ∈ stonesList size board, s.c = Cell.B ∨ s.c = Cell.W := by
  intro s hs
  unfold stonesList at hs
  rw [List.mem_filterMap] at hs
  obtain ⟨yx, _, hyx⟩ := hs
  rcases hcell : cellAt board yx.1 yx.2 with _ | _ | _ <;> rw [hcell] at hyx
  · injection hyx with h
    rw [← h]
    exact Or.inl rfl
  · injection hyx with h
    rw [← h]
    exact Or.inr rfl
  · exact absurd hyx (by simp)

theorem sum_map_ite_filter (l : List StoneRec) (p : StoneRec → Bool) (f : StoneRec → ℚ) :
    (l.map (fun s => if p s = true then f s else 0)).sum = ((l.filter p).map f).sum := by
  induction l with
  | nil => simp
  | cons a t ih =>
    rw [List.map_cons, List.sum_cons, ih, List.filter_cons]
    by_cases h : p a = true
    · rw [if_pos h, if_pos h, List.map_cons, List.sum_cons]
    · rw [if_neg h, if_neg h, zero_add]

/-- C5: for every board and parameter set accepted by `computeInfluence` and
every in-board target cell, each colour's influence field at the target is the
sum, over exactly the stones of that colour within `maxDistance` Manhattan
distance, of `stoneStrength × decay^d × occlusionFactor^k`, where `k` is the
number of opposing-colored cells strictly between the stone and the target on
the deterministic Manhattan path that steps fully along the x-axis and then
the y-axis (`blockCountSpec`; the multiplier is `occlusionFactor^0 = 1` when
`k = 0`). -/
theorem claim_C5_contribution_sum (input : BoardInput) (params : InfluenceParams)
    (res : InfluenceResult) (hOk : computeInfluence input params = .ok res)
    (tx ty : Nat) (htx : tx < input.size) (hty : ty < input.size) :
    gridAt res.black ty tx =
      (((stonesList input.size input.board).filter (fun s =>
          decide (s.c = Cell.B ∧ (manhattan s.x s.y tx ty : Int) ≤
            params.maxDistance.getD (((input.size : Int) - 1) * 2)))).map
        (fun s => contribSpec input.board params.stoneStrength params.decay
          params.occlusionFactor s tx ty)).sum ∧
    gridAt res.white ty tx =
      (((stonesList input.size input.board).filter (fun s =>
          decide (s.c = Cell.W ∧ (manhattan s.x s.y tx ty : Int) ≤
            params.maxDistance.getD (((input.size : Int) - 1) * 2)))).map
        (fun s => contribSpec input.board params.stoneStrength params.decay
          params.occlusionFactor s tx ty)).sum := by
  unfold computeInfluence at hOk
  rcases hA : assertBoard input with e | u
  · simp only [hA] at hOk
    exact absurd hOk (by simp)
  · simp only [hA] at hOk
    split_ifs at hOk with h1 h2
    · simp only [Except.ok.injEq] at hOk
      subst hOk
      constructor
      · show gridAt (materializeGrid input.size _) ty tx = _
        rw [gridAt_materializeGrid input.size _ ty tx hty htx]
        unfold influenceAccum
        rw [influenceAccum_fst input.board input.size params.stoneStrength params.decay
          params.occlusionFactor (params.maxDistance.getD (((input.size : Int) - 1) * 2))
          (stonesList input.size input.board) _ ty tx hty htx]
        rw [show ((fun (_ _ : Nat) => (0:ℚ)), (fun (_ _ : Nat) => (0:ℚ))).1 ty tx = 0 from rfl,
          zero_add]
        rw [List.map_congr_left (show ∀ s ∈ stonesList input.size input.board,
            (if s.c = Cell.B ∧ ¬((manhattan s.x s.y tx ty : Int) >
                params.maxDistance.getD (((input.size : Int) - 1) * 2)) then
              params.stoneStrength * params.decay ^ manhattan s.x s.y tx ty *
                occlusionPenalty input.board input.size s.x s.y tx ty s.c
                  params.occlusionFactor
            else 0) =
            (if (fun s => decide (s.c = Cell.B ∧ (manhattan s.x s.y tx ty : Int) ≤
                params.maxDistance.getD (((input.size : Int) - 1) * 2))) s = true then
              contribSpec input.board params.stoneStrength params.decay
                params.occlusionFactor s tx ty
            else 0) from by
          intro s _
          rw [show (fun s => decide (s.c = Cell.B ∧ (manhattan s.x s.y tx ty : Int) ≤
              params.maxDistance.getD (((input.size : Int) - 1) * 2))) s =
              decide (s.c = Cell.B ∧ (manhattan s.x s.y tx ty : Int) ≤
              params.maxDistance.getD (((input.size : Int) - 1) * 2)) from rfl]
          rw [show contribSpec input.board params.stoneStrength params.decay
              params.occlusionFactor s tx ty =
              params.stoneStrength * params.decay ^ manhattan s.x s.y tx ty *
                occlusionPenalty input.board input.size s.x s.y tx ty s.c
                  params.occlusionFactor from by
            unfold contribSpec
            rw [occlusionPenalty_spec]]
          apply if_congr _ rfl rfl
          rw [decide_eq_true_eq]
          constructor
          · rintro ⟨ha, hb⟩
            exact ⟨ha, by omega⟩
          · rintro ⟨ha, hb⟩
            exact ⟨ha, by omega⟩)]
        rw [sum_map_ite_filter]
      · show gridAt (materializeGrid input.size _) ty tx = _
        rw [gridAt_materializeGrid input.size _ ty tx hty htx]
        unfold influenceAccum
        rw [influenceAccum_snd input.board input.size params.stoneStrength params.decay
          params.occlusionFactor (params.maxDistance.getD (((input.size : Int) - 1) * 2))
          (stonesList input.size input.board) _ ty tx hty htx]
        rw [show ((fun (_ _ : Nat) => (0:ℚ)), (fun (_ _ : Nat) => (0:ℚ))).2 ty tx = 0 from rfl,
          zero_add]
        rw [List.map_congr_left (show ∀ s ∈ stonesList input.size input.board,
            (if ¬(s.c = Cell.B) ∧ ¬((manhattan s.x s.y tx ty : Int) >
                params.maxDistance.getD (((input.size : Int) - 1) * 2)) then
              params.stoneStrength * params.decay ^ manhattan s.x s.y tx ty *
                occlusionPenalty input.board input.size s.x s.y tx ty s.c
                  params.occlusionFactor
            else 0) =
            (if (fun s => decide (s.c = Cell.W ∧ (manhattan s.x s.y tx ty : Int) ≤
                params.maxDistance.getD (((input.size : Int) - 1) * 2))) s = true then
              contribSpec input.board params.stoneStrength params.decay
                params.occlusionFactor s tx ty
            else 0) from by
          intro s hs
          rw [show (fun s => decide (s.c = Cell.W ∧ (manhattan s.x s.y tx ty : Int) ≤
              params.maxDistance.getD (((input.size : Int) - 1) * 2))) s =
              decide (s.c = Cell.W ∧ (manhattan s.x s.y tx ty : Int) ≤
              params.maxDistance.getD (((input.size : Int) - 1) * 2)) from rfl]
          rw [show contribSpec input.board params.stoneStrength params.decay
              params.occlusionFactor s tx ty =
              params.stoneStrength * params.decay ^ manhattan s.x s.y tx ty *
                occlusionPenalty input.board input.size s.x s.y tx ty s.c
                  params.occlusionFactor from by
            unfold contribSpec
            rw [occlusionPenalty_spec]]
          apply if_congr _ rfl rfl
          rw [decide_eq_true_eq]
          constructor
          · rintro ⟨ha, hb⟩
            refine ⟨?_, by omega⟩
            rcases stonesList_colors input.size input.board s hs with hB | hW
            · exact absurd hB ha
            · exact hW
          · rintro ⟨ha, hb⟩
            refine ⟨?_, by omega⟩
            rw [ha]
            intro hcon
            exact absurd hcon (by simp))]
        rw [sum_map_ite_filter]

/-- C5 witness: the theorem applied to a concrete 1×1 board with a single
black stone, target cell (0, 0); the engine output `black = [[10]]` matches
the specified sum (one stone at distance 0 with no occlusion contributes
`10 × decay^0 × occlusionFactor^0 = 10`). -/
theorem claim_C5_witness :
    computeInfluence ⟨1, [[Cell.B]]⟩ ⟨10, 1/2, some 3, 1/2, 6/5⟩ =
        .ok ⟨1, [[10]], [[0]], [[10]], [[Cell.B]], ⟨0, 0, 0⟩⟩ ∧
    gridAt ([[10]] : List (List ℚ)) 0 0 =
      (((stonesList 1 [[Cell.B]]).filter (fun s =>
          decide (s.c = Cell.B ∧ (manhattan s.x s.y 0 0 : Int) ≤ 3))).map
        (fun s => contribSpec [[Cell.B]] 10 (1/2) (1/2) s 0 0)).sum :=
  ⟨by decide,
    (claim_C5_contribution_sum ⟨1, [[Cell.B]]⟩ ⟨10, 1/2, some 3, 1/2, 6/5⟩
      ⟨1, [[10]], [[0]], [[10]], [[Cell.B]], ⟨0, 0, 0⟩⟩ (by decide) 0 0
      (by decide) (by decide)).1⟩

/-! ## Claims C4 and C6 -/

theorem parseNewFormat_none_ok (data : List Char) :
    ∃ bd, parseNewFormat data none = .ok bd := by
  simp only [parseNewFormat]
  by_cases hc : ((((splitOnChar ';' data).map trimChars).getD 0 []).contains ',') = true
  · rw [if_pos hc]
    exact ⟨_, rfl⟩
  · rw [if_neg hc]
    exact ⟨_, rfl⟩

theorem parseLegacyFormat_none_ok (data : List Char) :
    ∃ bd, parseLegacyFormat data none = .ok bd := by
  simp only [parseLegacyFormat]
  exact ⟨_, rfl⟩

/-- C4: the round-trip law `encode(decode(X)) = X` fails on the legacy board
string `"4294967296"` with size `17x1`: a 17-cell row needs 34 bits, but
`parseRowBigint` reads the bits with the JS 32-bit `>>` operator
(`ToInt32(4294967296) = 0`), so the black stone in column 0 is lost and the
board re-encodes to `[0]` instead of `[4294967296]`.  The string has no
reserved `11` bit pairs, so the claim (the spec round-trip law, the
`parseRowBigint` doc comment "Parse a row as bigint", and the design note
demanding 64-bit/arbitrary-precision row integers) requires `[4294967296]`. -/
theorem claim_C4_code_bug_eval :
    (parseBoard "4294967296".toList (some "17x1".toList)).map encodeBoard =
      .ok [0] ∧ (0 : Int) ≠ 4294967296 := by
  constructor
  · decide
  · decide

/-- C6: the malformed board string `"Z,B;W,."` (invalid cell symbol `Z`) is not
rejected: parsing succeeds and silently coerces `Z` to an Empty cell, so the
claim that every malformed board string is surfaced as a validation error
before the engine runs is false. -/
theorem claim_C6_counterexample :
    (parseBoard "Z,B;W,.".toList none).map
        (fun b => (b.width, b.height, b.getStone 0 0, b.getStone 0 1,
          b.getStone 1 0, b.getStone 1 1)) =
      .ok (2, 2, Stone.NONE, Stone.BLACK, Stone.WHITE, Stone.NONE) := by
  decide

/-- C6 (amended): malformed board strings are not rejected before the engine
is invoked: when no explicit size parameter is supplied, parsing succeeds for
every input string, and every cell symbol other than `B`/`W` is silently
coerced to `Stone.NONE` instead of being surfaced as a validation error. -/
theorem claim_C6_amended :
    (∀ boardData : List Char, ∃ bd, parseBoard boardData none = .ok bd) ∧
    (∀ cell : List Char, cell ≠ ['B'] → cell ≠ ['W'] → cellToStone cell = .NONE) := by
  constructor
  · intro boardData
    unfold parseBoard
    by_cases h : (boardData.contains ';') = true
    · rw [if_pos h]
      exact parseNewFormat_none_ok boardData
    · rw [if_neg h]
      exact parseLegacyFormat_none_ok boardData
  · intro cell h1 h2
    simp [cellToStone, h1, h2]

/-- C6 witness: the amended theorem applied at the concrete symbol `"Z"` and
the concrete malformed board string from the counterexample. -/
theorem claim_C6_witness :
    cellToStone ['Z'] = Stone.NONE ∧
      ∃ bd, parseBoard "invalid,data,here".toList none = .ok bd :=
  ⟨claim_C6_amended.2 ['Z'] (by decide) (by decide),
    claim_C6_amended.1 "invalid,data,here".toList⟩

/-! ## Claims C9 and C10 -/

theorem getD_all (l : List Cell) (h : ∀ c ∈ l, c = Cell.dot) (x : Nat) :
    l.getD x Cell.dot = Cell.dot := by
  induction l generalizing x with
  | nil => cases x <;> rfl
  | cons a t ih =>
    cases x with
    | zero => exact h a (List.mem_cons_self a t)
    | succ n => exact ih (fun c hc => h c (List.mem_cons_of_mem a hc)) n

theorem cellAt_of_all_dot (board : List (List Cell))
    (h : ∀ row ∈ board, ∀ c ∈ row, c = Cell.dot) (y x : Nat) :
    cellAt board y x = Cell.dot := by
  unfold cellAt
  have hrow : ∀ c ∈ board.getD y [], c = Cell.dot := by
    induction board generalizing y with
    | nil => cases y <;> simp
    | cons r t ih =>
      cases y with
      | zero => exact h r (List.mem_cons_self r t)
      | succ n => exact ih (fun row hr => h row (List.mem_cons_of_mem r hr)) n
  exact getD_all _ hrow x

theorem stonesList_of_all_dot (size : Nat) (board : List (List Cell))
    (h : ∀ row ∈ board, ∀ c ∈ row, c = Cell.dot) :
    stonesList size board = [] := by
  unfold stonesList
  rw [List.filterMap_eq_nil_iff]
  intro yx _
  rw [cellAt_of_all_dot board h]

theorem length_cellList (size : Nat) : (cellList size).length = size * size := by
  unfold cellList
  rw [List.length_flatMap]
  rw [show (List.length ∘ fun y => List.map (fun x => (y, x)) (List.range size)) =
      (fun (_ : Nat) => size) from by funext y; simp [Function.comp]]
  rw [List.map_const', List.length_range, List.sum_replicate, smul_eq_mul]

theorem materializeGrid_zero (size : Nat) :
    materializeGrid size (fun _ _ => (0 : ℚ)) =
      List.replicate size (List.replicate size 0) := by
  unfold materializeGrid
  rw [show ((fun y => (List.range size).map (fun x => (0:ℚ)))) =
      (fun (y : Nat) => List.replicate size (0:ℚ)) from ?_]
  · rw [List.map_const', List.length_range]
  · funext y
    rw [List.map_const', List.length_range]

/-- C9: on the empty 1×1 board with parameters
`{stoneStrength 10, decay 1/2, maxDistance 2, occlusionFactor 1/2, territoryThreshold 0}`,
validation accepts the parameter set (only `decay` and `occlusionFactor` are
checked), the black influence grid is zero, yet the territory grid labels the
cell Black (`0 ≥ threshold` when the threshold is `0`), not Neutral — refuting
the claim for `computeInfluence` under every validation-accepted parameter
set. -/
theorem claim_C9_counterexample :
    (computeInfluence ⟨1, [[Cell.dot]]⟩ ⟨10, 1/2, some 2, 1/2, 0⟩).map
        (fun r => (r.black, r.territory)) =
      .ok ([[0]], [[Cell.B]]) := by
  decide

/-- C9 (amended): on a board with no stones and any validation-accepted
parameter set whose `territoryThreshold` is positive, `computeInfluence`
returns all-zero black, white and net grids, an all-Neutral territory grid,
and a territory tally of `size * size` neutral cells. -/
theorem territoryCell_all_dot_zero (board : List (List Cell))
    (h : ∀ row ∈ board, ∀ c ∈ row, c = Cell.dot)
    (netF : Grid) (hnet : ∀ y x, netF y x = 0) (thr : ℚ) (hThr : 0 < thr)
    (y x : Nat) : territoryCell board netF thr y x = Cell.dot := by
  unfold territoryCell
  rw [cellAt_of_all_dot board h, hnet]
  rw [if_neg (by linarith), if_neg (by linarith)]

theorem countTerritory_all_dot_zero (board : List (List Cell))
    (h : ∀ row ∈ board, ∀ c ∈ row, c = Cell.dot)
    (netF : Grid) (hnet : ∀ y x, netF y x = 0) (thr : ℚ) (hThr : 0 < thr)
    (size : Nat) :
    countTerritory board netF thr size = ⟨0, 0, size * size⟩ := by
  unfold countTerritory
  simp only [TerritoryCount.mk.injEq]
  refine ⟨?_, ?_, ?_⟩
  · rw [List.countP_eq_zero]
    intro yx _
    simp only [cellAt_of_all_dot board h, hnet, decide_eq_true_eq, not_and]
    intro _ hcon
    linarith
  · rw [List.countP_eq_zero]
    intro yx _
    simp only [cellAt_of_all_dot board h, hnet, decide_eq_true_eq, not_and]
    intro _ _ hcon
    linarith
  · rw [← length_cellList size, List.countP_eq_length]
    intro yx _
    simp only [cellAt_of_all_dot board h, hnet, decide_eq_true_eq, true_and]
    exact ⟨fun hcon => by linarith, fun hcon => by linarith⟩

theorem claim_C9_amended (input : BoardInput) (params : InfluenceParams)
    (res : InfluenceResult)
    (hEmpty : ∀ row ∈ input.board, ∀ c ∈ row, c = Cell.dot)
    (hOk : computeInfluence input params = .ok res)
    (hThr : 0 < params.territoryThreshold) :
    res.black = List.replicate input.size (List.replicate input.size 0) ∧
    res.white = List.replicate input.size (List.replicate input.size 0) ∧
    res.net = List.replicate input.size (List.replicate input.size 0) ∧
    res.territory = List.replicate input.size (List.replicate input.size Cell.dot) ∧
    res.territoryCount = ⟨0, 0, input.size * input.size⟩ := by
  unfold computeInfluence at hOk
  rcases hA : assertBoard input with e | u
  · simp only [hA] at hOk
    exact absurd hOk (by simp)
  · simp only [hA] at hOk
    rw [stonesList_of_all_dot input.size input.board hEmpty] at hOk
    split_ifs at hOk with h1 h2
    · simp only [influenceAccum, List.foldl_nil, Except.ok.injEq] at hOk
      subst hOk
      have hnet : ∀ y x : Nat, ((fun (y x : Nat) => (0:ℚ) - 0) y x) = 0 := by
        intro y x
        simp
      refine ⟨materializeGrid_zero input.size, materializeGrid_zero input.size, ?_, ?_, ?_⟩
      · show materializeGrid input.size (fun y x => (0:ℚ) - 0) = _
        rw [show (fun (y x : Nat) => (0:ℚ) - 0) = (fun (_ _ : Nat) => (0 : ℚ)) from by
          funext y x; simp]
        exact materializeGrid_zero input.size
      · show List.map (fun y => List.map (fun x =>
            territoryCell input.board (fun y x => (0:ℚ) - 0) params.territoryThreshold y x)
            (List.range input.size)) (List.range input.size) = _
        rw [show (fun y => List.map (fun x =>
            territoryCell input.board (fun y x => (0:ℚ) - 0) params.territoryThreshold y x)
            (List.range input.size)) =
            (fun (_ : Nat) => List.replicate input.size Cell.dot) from ?_]
        · rw [List.map_const', List.length_range]
        · funext y
          rw [show (fun x => territoryCell input.board (fun y x => (0:ℚ) - 0)
              params.territoryThreshold y x) = (fun (_ : Nat) => Cell.dot) from ?_]
          · rw [List.map_const', List.length_range]
          · funext x
            exact territoryCell_all_dot_zero input.board hEmpty _ hnet
              params.territoryThreshold hThr y x
      · show countTerritory input.board (fun y x => (0:ℚ) - 0)
            params.territoryThreshold input.size = _
        exact countTerritory_all_dot_zero input.board hEmpty _ hnet
          params.territoryThreshold hThr input.size

/-- C9 witness: the amended theorem applied to the empty 1×1 board with the
repository's default parameters (threshold 6/5 > 0). -/
theorem claim_C9_witness :
    (computeInfluence ⟨1, [[Cell.dot]]⟩ DEFAULT_INFLUENCE_PARAMS =
      .ok ⟨1, [[0]], [[0]], [[0]], [[Cell.dot]], ⟨0, 0, 1⟩⟩) ∧
    (⟨1, [[0]], [[0]], [[0]], [[Cell.dot]], ⟨0, 0, 1⟩⟩ : InfluenceResult).territory =
      List.replicate 1 (List.replicate 1 Cell.dot) :=
  ⟨by decide,
    (claim_C9_amended ⟨1, [[Cell.dot]]⟩ DEFAULT_INFLUENCE_PARAMS
      ⟨1, [[0]], [[0]], [[0]], [[Cell.dot]], ⟨0, 0, 1⟩⟩
      (by decide) (by decide) (by decide)).2.2.2.1⟩

theorem assertBoard_adapter (b : Board) :
    assertBoard (boardToInfluenceInput b) = .ok () ↔ b.height = b.width := by
  have hlen : (boardToInfluenceInput b).board.length = b.height := by
    simp [boardToInfluenceInput]
  have hany : (boardToInfluenceInput b).board.any
      (fun row => decide (row.length ≠ (boardToInfluenceInput b).size)) = false := by
    rw [List.any_eq_false]
    intro row hrow
    simp only [boardToInfluenceInput, List.mem_map] at hrow
    obtain ⟨y, hy, hrow2⟩ := hrow
    subst hrow2
    simp [boardToInfluenceInput]
  unfold assertBoard
  rw [hlen, hany]
  rw [if_neg (show ¬(false = true) from by simp)]
  by_cases hq : b.height = (boardToInfluenceInput b).size
  · rw [if_neg (by simpa using hq)]
    exact iff_of_true rfl hq
  · rw [if_pos hq]
    exact iff_of_false (by simp) hq

/-- C10: the influence query at the public interface succeeds exactly on
square boards: the adapter declares the board's width as the square size while
emitting one row per unit of height, and `assertBoard` rejects the row-count
mismatch with a validation error before the engine computes anything, even
though `Board` itself and the parser support rectangular boards. -/
theorem claim_C10_square_only (b : Board) :
    (∃ r, calculateInfluence b = .ok r) ↔ b.height = b.width := by
  constructor
  · rintro ⟨r, hr⟩
    unfold calculateInfluence at hr
    rcases hI : computeInfluence (boardToInfluenceInput b) DEFAULT_INFLUENCE_PARAMS with e | res
    · rw [hI] at hr
      exact absurd hr (by simp)
    · unfold computeInfluence at hI
      rcases hA : assertBoard (boardToInfluenceInput b) with e2 | u
      · rw [hA] at hI
        exact absurd hI (by simp)
      · cases u
        exact (assertBoard_adapter b).mp hA
  · intro h
    have hA : assertBoard (boardToInfluenceInput b) = .ok () :=
      (assertBoard_adapter b).mpr h
    unfold calculateInfluence computeInfluence
    rw [hA]
    rw [if_neg (show ¬¬(0 < DEFAULT_INFLUENCE_PARAMS.decay ∧
        DEFAULT_INFLUENCE_PARAMS.decay < 1) from fun hc => hc ⟨by decide, by decide⟩)]
    rw [if_neg (show ¬¬(0 ≤ DEFAULT_INFLUENCE_PARAMS.occlusionFactor ∧
        DEFAULT_INFLUENCE_PARAMS.occlusionFactor ≤ 1) from fun hc =>
        hc ⟨by decide, by decide⟩)]
    exact ⟨_, rfl⟩

/-- C10 witness: the theorem applied to a concrete square board (2×2,
succeeds) and a concrete rectangular board (width 3, height 2, fails). -/
theorem claim_C10_witness :
    (∃ r, calculateInfluence (Board.new 2 2) = .ok r) ∧
    ¬(∃ r, calculateInfluence (Board.new 3 2) = .ok r) :=
  ⟨(claim_C10_square_only (Board.new 2 2)).mpr rfl,
    fun hex => absurd ((claim_C10_square_only (Board.new 3 2)).mp hex) (by decide)⟩

/-! ### `src/npcAI.ts` (NPCAI)

The recursive flood fills are embedded with an explicit fuel argument; the
fuel `board.width * board.height + 1` used by the entry points is proved
sufficient below (every level of the TS recursion that does not return
immediately inserts a fresh valid cell into `visited`).  `Math.random()` is
threaded as an explicit argument so that determinism claims quantify over
it: `evaluateMove` receives the value `rand` of the single `Math.random()`
call it performs, and `calculateMove` receives a function giving that value
for each evaluated position.  All scores are exact in `ℚ` (every constant is
a small multiple of 1/4, so IEEE doubles compute them exactly; the division
`totalStones / boardSize` feeds only the comparison with 1/4, which double
rounding cannot flip for any feasible board area). -/

def directions : List (Int × Int) := [(-1, 0), (1, 0), (0, -1), (0, 1)]

def floodFillLiberties (b : Board) (stone : Stone) :
    Nat → Int → Int → Finset (Int × Int) → Finset (Int × Int) →
    Finset (Int × Int) × Finset (Int × Int)
  | 0, _, _, visited, liberties => (visited, liberties)
  | fuel + 1, row, col, visited, liberties =>
    if (row, col) ∈ visited ∨ b.isValidPosition row col = false then
      (visited, liberties)
    else
      let visited1 := insert (row, col) visited
      if b.getStone row col = Stone.NONE then
        (visited1, insert (row, col) liberties)
      else if b.getStone row col ≠ stone then
        (visited1, liberties)
      else
        let r1 := floodFillLiberties b stone fuel (row - 1) col visited1 liberties
        let r2 := floodFillLiberties b stone fuel (row + 1) col r1.1 r1.2
        let r3 := floodFillLiberties b stone fuel row (col - 1) r2.1 r2.2
        floodFillLiberties b stone fuel row (col + 1) r3.1 r3.2

def countLiberties (b : Board) (row col : Int) (stone : Stone) : Nat :=
  (floodFillLiberties b stone (b.width * b.height + 1) row col ∅ ∅).2.card

def floodFillGroup (b : Board) (stone : Stone) :
    Nat → Int → Int → Finset (Int × Int) → Nat × Finset (Int × Int)
  | 0, _, _, visited => (0, visited)
  | fuel + 1, row, col, visited =>
    if (row, col) ∈ visited ∨ b.isValidPosition row col = false ∨
        b.getStone row col ≠ stone then
      (0, visited)
    else
      let r1 := floodFillGroup b stone fuel (row - 1) col (insert (row, col) visited)
      let r2 := floodFillGroup b stone fuel (row + 1) col r1.2
      let r3 := floodFillGroup b stone fuel row (col - 1) r2.2
      let r4 := floodFillGroup b stone fuel row (col + 1) r3.2
      (1 + r1.1 + r2.1 + r3.1 + r4.1, r4.2)

def getGroupSize (b : Board) (row col : Int) (stone : Stone) : Nat :=
  (floodFillGroup b stone (b.width * b.height + 1) row col ∅).1

def getPositionScore (b : Board) (row col : Int) : ℚ :=
  let boardSize := min b.width b.height
  if (row = 0 ∨ row = (b.height : Int) - 1) ∧ (col = 0 ∨ col = (b.width : Int) - 1) then
    if boardSize > 9 then 8 else 4
  else if row = 0 ∨ row = (b.height : Int) - 1 ∨ col = 0 ∨ col = (b.width : Int) - 1 then
    if boardSize > 9 then 4 else 2
  else
    let centerRow : Int := ((b.height / 2 : Nat) : Int)
    let centerCol : Int := ((b.width / 2 : Nat) : Int)
    let distanceFromCenter : Int :=
      ((row - centerRow).natAbs : Int) + ((col - centerCol).natAbs : Int)
    ((max 0 ((boardSize / 3 : Nat) - distanceFromCenter) : Int) : ℚ)

def checkOpponentConnections (b : Board) (row col opponentRow opponentCol : Int)
    (opponentStone : Stone) : ℚ :=
  directions.foldl (fun score d =>
    let checkRow := opponentRow + d.1
    let checkCol := opponentCol + d.2
    if b.isValidPosition checkRow checkCol = true ∧
        b.getStone checkRow checkCol = opponentStone ∧
        (checkRow ≠ row ∨ checkCol ≠ col) then
      score + 8
    else score) 0

def getBlockingScore (b : Board) (row col : Int)
    (playerStone opponentStone : Stone) : ℚ :=
  directions.foldl (fun score d =>
    let adjRow := row + d.1
    let adjCol := col + d.2
    if b.isValidPosition adjRow adjCol = true ∧
        b.getStone adjRow adjCol = opponentStone then
      let opponentLiberties := countLiberties b adjRow adjCol opponentStone
      let opponentGroupSize := getGroupSize b adjRow adjCol opponentStone
      (if opponentLiberties > 2 ∧ opponentGroupSize ≥ 2 then score + 10 else score) +
        checkOpponentConnections b row col adjRow adjCol opponentStone
    else score) 0

/-- Inclusive integer range `lo..hi` (empty when `hi < lo`), used to embed the
`for (let r = lo; r <= hi; r++)` loops of `getTerritoryScore`. -/
def intRangeIncl (lo hi : Int) : List Int :=
  (List.range (hi + 1 - lo).toNat).map (fun i => lo + (i : Int))

def getTerritoryScore (b : Board) (row col : Int)
    (playerStone opponentStone : Stone) : ℚ :=
  let radius : Int := 2
  let acc := (intRangeIncl (max 0 (row - radius))
      (min ((b.height : Int) - 1) (row + radius))).foldl
    (fun acc r =>
      (intRangeIncl (max 0 (col - radius))
          (min ((b.width : Int) - 1) (col + radius))).foldl
        (fun acc c =>
          if r = row ∧ c = col then acc
          else
            let distance : Int := ((r - row).natAbs : Int) + ((c - col).natAbs : Int)
            let weight : Int := max 1 (radius + 1 - distance)
            let stone := b.getStone r c
            if stone = playerStone then (acc.1 + weight, acc.2.1, acc.2.2)
            else if stone = opponentStone then (acc.1, acc.2.1 + weight, acc.2.2)
            else (acc.1, acc.2.1, acc.2.2 + weight)) acc)
    ((0 : Int), (0 : Int), (0 : Int))
  let friendlyInfluence := acc.1
  let enemyInfluence := acc.2.1
  let emptySpaces := acc.2.2
  (if friendlyInfluence > enemyInfluence then
    ((friendlyInfluence - enemyInfluence : Int) : ℚ) * 2 else 0) +
    (emptySpaces : ℚ) * (1/2)

def totalStonesOnBoard (b : Board) : Nat :=
  ((cellsFinset b).filter (fun p => b.getStone p.1 p.2 ≠ Stone.NONE)).card

def isStarPoint (b : Board) (row col : Int) : Bool :=
  if b.width < 9 then false
  else
    let size := b.width
    let starPoints : List (Int × Int) :=
      if size ≥ 13 then
        let offset : Int := if size ≥ 19 then 3 else 2
        let corners : List (Int × Int) :=
          [(offset, offset), (offset, (size : Int) - 1 - offset),
            ((size : Int) - 1 - offset, offset),
            ((size : Int) - 1 - offset, (size : Int) - 1 - offset)]
        if size % 2 = 1 then
          let center : Int := ((size / 2 : Nat) : Int)
          corners ++ [(center, center)] ++
            (if size ≥ 19 then
              [(offset, center), (center, offset),
                ((size : Int) - 1 - offset, center),
                (center, (size : Int) - 1 - offset)]
            else [])
        else corners
      else []
    starPoints.any (fun p => decide (p.1 = row ∧ p.2 = col))

def getCornerDistance (b : Board) (row col : Int) : Nat :=
  let h : Int := (b.height : Int) - 1
  let w : Int := (b.width : Int) - 1
  min (min ((row - 0).natAbs + (col - 0).natAbs) ((row - 0).natAbs + (col - w).natAbs))
    (min ((row - h).natAbs + (col - 0).natAbs) ((row - h).natAbs + (col - w).natAbs))

def getOpeningScore (b : Board) (row col : Int) (playerStone : Stone) : ℚ :=
  let totalStones := totalStonesOnBoard b
  let boardSize := b.width * b.height
  -- JS: `gamePhase = totalStones / boardSize` is NaN when boardSize = 0 and the
  -- `NaN < 0.25` comparison is false, hence the explicit `0 < boardSize` guard.
  if 0 < boardSize ∧ (totalStones : ℚ) / (boardSize : ℚ) < 1/4 then
    if b.width ≥ 9 then
      (if isStarPoint b row col = true then 15 else 0) +
        (if getCornerDistance b row col ≤ 3 then
          8 - (getCornerDistance b row col : ℚ) else 0)
    else
      let centerRow : Int := ((b.height / 2 : Nat) : Int)
      let centerCol : Int := ((b.width / 2 : Nat) : Int)
      let distanceFromCenter : Int :=
        ((row - centerRow).natAbs : Int) + ((col - centerCol).natAbs : Int)
      if distanceFromCenter ≤ 1 then 12
      else if distanceFromCenter ≤ 2 then 6 else 0
  else 0

def getCaptureScore (b : Board) (row col : Int)
    (playerStone opponentStone : Stone) : ℚ :=
  directions.foldl (fun score d =>
    let adjRow := row + d.1
    let adjCol := col + d.2
    if b.isValidPosition adjRow adjCol = true ∧
        b.getStone adjRow adjCol = opponentStone then
      if countLiberties b adjRow adjCol opponentStone = 1 then
        score + (getGroupSize b adjRow adjCol opponentStone : ℚ) * 20
      else score
    else score) 0

def getDefenseScore (b : Board) (row col : Int)
    (playerStone opponentStone : Stone) : ℚ :=
  directions.foldl (fun score d =>
    let adjRow := row + d.1
    let adjCol := col + d.2
    if b.isValidPosition adjRow adjCol = true ∧
        b.getStone adjRow adjCol = playerStone then
      let liberties := countLiberties b adjRow adjCol playerStone
      if liberties ≤ 2 then score + ((3 : ℚ) - (liberties : ℚ)) * 15 else score
    else score) 0

def getConnectionScore (b : Board) (row col : Int) (playerStone : Stone) : ℚ :=
  let friendlyNeighbors := directions.countP (fun d =>
    b.isValidPosition (row + d.1) (col + d.2) &&
      decide (b.getStone (row + d.1) (col + d.2) = playerStone))
  (friendlyNeighbors : ℚ) * 8

def evaluateMove (b : Board) (row col : Int) (playerStone opponentStone : Stone)
    (rand : ℚ) : ℚ :=
  let captureScore := getCaptureScore b row col playerStone opponentStone
  let defenseScore := getDefenseScore b row col playerStone opponentStone
  (if captureScore > 0 then captureScore * 3 else 0) +
    (if defenseScore > 0 then defenseScore * (5/2) else 0) +
    getBlockingScore b row col playerStone opponentStone +
    getTerritoryScore b row col playerStone opponentStone +
    getConnectionScore b row col playerStone +
    getOpeningScore b row col playerStone +
    getPositionScore b row col * (1/2) +
    (rand - 1/2) * 2

def emptyPositionsList (b : Board) : List (Int × Int) :=
  (List.range b.height).flatMap (fun row =>
    (List.range b.width).filterMap (fun col =>
      if b.isEmpty ((row : Nat) : Int) ((col : Nat) : Int) = true then
        some (((row : Nat) : Int), ((col : Nat) : Int))
      else none))

/-- One step of the best-move scan: the accumulator is `none` while
`bestMove` is still `null` (`bestScore = -Infinity`, which every finite
score strictly exceeds), and the update keeps the incumbent on ties. -/
def pickStep (score : (Int × Int) → ℚ) (acc : Option ((Int × Int) × ℚ))
    (pos : Int × Int) : Option ((Int × Int) × ℚ) :=
  match acc with
  | none => some (pos, score pos)
  | some best => if score pos > best.2 then some (pos, score pos) else some best

def calculateMove (b : Board) (color : Color) (rand : Int → Int → ℚ) :
    Option (Int × Int) :=
  let playerStone := color.stone
  let opponentStone := color.opponentStone
  let emptyPositions := emptyPositionsList b
  if emptyPositions.isEmpty then none
  else
    match emptyPositions.foldl
        (pickStep (fun pos => evaluateMove b pos.1 pos.2 playerStone opponentStone
          (rand pos.1 pos.2))) none with
    | some best => some (best.1.1 + 1, best.1.2 + 1)
    | none => none

/-! ### Declarative best-move characterization (from the specification)

`FirstMax score l q` formalizes the spec's tie-break rule for `q` within the
candidate list `l`: everything before `q` scores strictly less and everything
after scores at most as much, i.e. `q` is the first list element attaining
the maximum score. -/

def FirstMax (score : (Int × Int) → ℚ) (l : List (Int × Int)) (q : Int × Int) : Prop :=
  ∃ l1 l2, l = l1 ++ q :: l2 ∧ (∀ r ∈ l1, score r < score q) ∧
    ∀ r ∈ l2, score r ≤ score q

theorem firstMax_not_nil (score : (Int × Int) → ℚ) (q : Int × Int) :
    ¬ FirstMax score [] q := by
  rintro ⟨l1, l2, he, -, -⟩
  exact absurd he.symm (by simp)

theorem firstMax_unique (score : (Int × Int) → ℚ) :
    ∀ (l : List (Int × Int)) (q q2 : Int × Int),
      FirstMax score l q → FirstMax score l q2 → q = q2 := by
  intro l
  induction l with
  | nil => exact fun q q2 h _ => absurd h (firstMax_not_nil score q)
  | cons a t ih =>
    rintro q q2 ⟨l1, l2, he, hlt, hle⟩ ⟨l3, l4, he2, hlt2, hle2⟩
    cases l1 with
    | nil =>
      cases l3 with
      | nil =>
        simp only [List.nil_append, List.cons.injEq] at he he2
        exact he.1.symm.trans he2.1
      | cons b l3t =>
        simp only [List.nil_append, List.cons.injEq, List.cons_append] at he he2
        -- here q = a heads the list and q2 occurs later, inside q's tail l2
        have hq2mem : q2 ∈ l2 := by
          rw [← he.2, he2.2]
          exact List.mem_append_right l3t (List.mem_cons_self q2 l4)
        have h1 : score q2 ≤ score q := hle q2 hq2mem
        have h2 : score q < score q2 := by
          have := hlt2 b (List.mem_cons_self b l3t)
          rwa [← he2.1, he.1] at this
        exact absurd h1 (not_le.mpr h2)
    | cons b l1t =>
      cases l3 with
      | nil =>
        simp only [List.nil_append, List.cons.injEq, List.cons_append] at he he2
        have hqmem : q ∈ l4 := by
          rw [← he2.2, he.2]
          exact List.mem_append_right l1t (List.mem_cons_self q l2)
        have h1 : score q ≤ score q2 := hle2 q hqmem
        have h2 : score q2 < score q := by
          have := hlt b (List.mem_cons_self b l1t)
          rwa [← he.1, he2.1] at this
        exact absurd h1 (not_le.mpr h2)
      | cons c l3t =>
        simp only [List.cons_append, List.cons.injEq] at he he2
        exact ih q q2
          ⟨l1t, l2, he.2, fun r hr => hlt r (List.mem_cons_of_mem b hr), hle⟩
          ⟨l3t, l4, he2.2, fun r hr => hlt2 r (List.mem_cons_of_mem c hr), hle2⟩

theorem foldl_pickStep_spec (score : (Int × Int) → ℚ) (l : List (Int × Int)) :
    (l = [] ∧ List.foldl (pickStep score) none l = none) ∨
    ∃ q, List.foldl (pickStep score) none l = some (q, score q) ∧
      FirstMax score l q := by
  induction l using List.reverseRecOn with
  | nil => exact Or.inl ⟨rfl, rfl⟩
  | append_singleton l x ih =>
    rw [List.foldl_append]
    rcases ih with ⟨hl, hres⟩ | ⟨q, hres, l1, l2, he, hlt, hle⟩
    · subst hl
      rw [hres]
      exact Or.inr ⟨x, rfl, [], [], by simp, by simp, by simp⟩
    · rw [hres]
      simp only [List.foldl_cons, List.foldl_nil, pickStep]
      by_cases hgt : score x > score q
      · rw [if_pos hgt]
        refine Or.inr ⟨x, rfl, l, [], by simp, ?_, by simp⟩
        intro r hr
        rw [he] at hr
        rcases List.mem_append.mp hr with hr1 | hr2
        · exact lt_trans (hlt r hr1) hgt
        · rcases List.mem_cons.mp hr2 with hq | hr3
          · rw [hq]; exact hgt
          · exact lt_of_le_of_lt (hle r hr3) hgt
      · rw [if_neg hgt]
        refine Or.inr ⟨q, rfl, l1, l2 ++ [x], by rw [he]; simp, hlt, ?_⟩
        intro r hr
        rcases List.mem_append.mp hr with hr1 | hr2
        · exact hle r hr1
        · rw [List.mem_singleton.mp hr2]
          exact not_lt.mp hgt

/-- **C7.** With the jitter term fixed at zero (every `Math.random()` draw
returns 1/2, so `(rand - 0.5) * 2 = 0`), any two calls of `calculateMove` on
the same board and color return the identical result, and that result is
`some` of the one-based coordinate of the first cell in row-major scan order
attaining the maximum zero-jitter score (first-encountered wins exact ties),
whenever any empty cell exists. -/
theorem claim_C7_deterministic_first_max (b : Board) (color : Color)
    (rand1 rand2 : Int → Int → ℚ)
    (h1 : ∀ r c, rand1 r c = 1/2) (h2 : ∀ r c, rand2 r c = 1/2) :
    calculateMove b color rand1 = calculateMove b color rand2 ∧
    ∀ p : Int × Int, calculateMove b color rand1 = some p ↔
      ∃ q, FirstMax
          (fun pos => evaluateMove b pos.1 pos.2 color.stone color.opponentStone (1/2))
          (emptyPositionsList b) q ∧
        p = (q.1 + 1, q.2 + 1) := by
  have hr1 : rand1 = fun _ _ => (1 : ℚ)/2 := funext fun r => funext fun c => h1 r c
  have hr2 : rand2 = fun _ _ => (1 : ℚ)/2 := funext fun r => funext fun c => h2 r c
  subst hr1; subst hr2
  refine ⟨rfl, ?_⟩
  intro p
  have key : calculateMove b color (fun _ _ => (1 : ℚ)/2) =
      if (emptyPositionsList b).isEmpty then none
      else
        match List.foldl
            (pickStep (fun pos =>
              evaluateMove b pos.1 pos.2 color.stone color.opponentStone (1/2)))
            none (emptyPositionsList b) with
        | some best => some (best.1.1 + 1, best.1.2 + 1)
        | none => none := rfl
  rw [key]
  rcases foldl_pickStep_spec
      (fun pos => evaluateMove b pos.1 pos.2 color.stone color.opponentStone (1/2))
      (emptyPositionsList b) with ⟨hl, _⟩ | ⟨q, hres, hfm⟩
  · rw [hl]
    simp only [List.isEmpty_nil, if_true]
    constructor
    · intro hc; exact absurd hc (by simp)
    · rintro ⟨q, hq, -⟩
      exact absurd hq (firstMax_not_nil _ q)
  · have hne : (emptyPositionsList b).isEmpty = false := by
      rcases hfm with ⟨l1, l2, he, -, -⟩
      rw [he]
      simp
    rw [hne, if_neg (by simp), hres]
    constructor
    · intro hp
      exact ⟨q, hfm, (Option.some.injEq _ _).mp hp.symm⟩
    · rintro ⟨q2, hfm2, hp⟩
      rw [firstMax_unique _ (emptyPositionsList b) q q2 hfm hfm2, hp]

/-- Witness for C7 on the empty 2x2 board with black to move. -/
theorem claim_C7_witness :
    calculateMove (Board.new 2 2) Color.black (fun _ _ => 1/2) =
      calculateMove (Board.new 2 2) Color.black (fun _ _ => 1/2) ∧
    ∀ p : Int × Int,
      calculateMove (Board.new 2 2) Color.black (fun _ _ => 1/2) = some p ↔
      ∃ q, FirstMax
          (fun pos => evaluateMove (Board.new 2 2) pos.1 pos.2 Color.black.stone
            Color.black.opponentStone (1/2))
          (emptyPositionsList (Board.new 2 2)) q ∧
        p = (q.1 + 1, q.2 + 1) :=
  claim_C7_deterministic_first_max (Board.new 2 2) Color.black _ _
    (fun _ _ => rfl) (fun _ _ => rfl)

/-! ### Declarative star-point layout (from the specification)

The handicap-point layout described by the spec, parameterized by the board
dimension the code actually consults (its width): corner points at
`offset = 3` (width ≥ 19) or `2` (13 ≤ width < 19), the centre point on odd
widths, and the four side points on odd widths ≥ 19; no star points below
width 13. -/

def starOffset (b : Board) : Int := if b.width ≥ 19 then 3 else 2

def starLast (b : Board) : Int := (b.width : Int) - 1 - starOffset b

def starCenter (b : Board) : Int := ((b.width / 2 : Nat) : Int)

def starSpec (b : Board) (row col : Int) : Prop :=
  13 ≤ b.width ∧
  (((row = starOffset b ∨ row = starLast b) ∧
      (col = starOffset b ∨ col = starLast b)) ∨
    (b.width % 2 = 1 ∧ row = starCenter b ∧ col = starCenter b) ∨
    (b.width ≥ 19 ∧ b.width % 2 = 1 ∧
      ((row = starOffset b ∧ col = starCenter b) ∨
        (row = starCenter b ∧ col = starOffset b) ∨
        (row = starLast b ∧ col = starCenter b) ∨
        (row = starCenter b ∧ col = starLast b))))

instance (b : Board) (row col : Int) : Decidable (starSpec b row col) := by
  unfold starSpec
  infer_instance

set_option maxHeartbeats 1600000 in
theorem isStarPoint_iff (b : Board) (row col : Int) :
    isStarPoint b row col = true ↔ starSpec b row col := by
  by_cases h9 : b.width < 9
  · simp only [isStarPoint]
    rw [if_pos h9]
    simp only [Bool.false_eq_true, false_iff]
    rintro ⟨h13, -⟩
    omega
  · by_cases h13 : b.width ≥ 13
    · by_cases hodd : b.width % 2 = 1
      · by_cases h19 : b.width ≥ 19
        · simp only [isStarPoint]
          rw [if_neg h9]
          simp only [if_pos h13, if_pos hodd, if_pos h19]
          simp only [List.any_append, List.any_cons, List.any_nil, Bool.or_eq_true,
            Bool.or_false, decide_eq_true_eq]
          simp only [starSpec, starOffset, starLast, starCenter, if_pos h19]
          omega
        · simp only [isStarPoint]
          rw [if_neg h9]
          simp only [if_pos h13, if_pos hodd, if_neg h19]
          simp only [List.any_append, List.any_cons, List.any_nil, Bool.or_eq_true,
            Bool.or_false, decide_eq_true_eq]
          simp only [starSpec, starOffset, starLast, starCenter, if_neg h19]
          omega
      · by_cases h19 : b.width ≥ 19
        · simp only [isStarPoint]
          rw [if_neg h9]
          simp only [if_pos h13, if_neg hodd, if_pos h19]
          simp only [List.any_append, List.any_cons, List.any_nil, Bool.or_eq_true,
            Bool.or_false, decide_eq_true_eq]
          simp only [starSpec, starOffset, starLast, starCenter, if_pos h19]
          omega
        · simp only [isStarPoint]
          rw [if_neg h9]
          simp only [if_pos h13, if_neg hodd, if_neg h19]
          simp only [List.any_append, List.any_cons, List.any_nil, Bool.or_eq_true,
            Bool.or_false, decide_eq_true_eq]
          simp only [starSpec, starOffset, starLast, starCenter, if_neg h19]
          omega
    · simp only [isStarPoint]
      rw [if_neg h9]
      simp only [if_neg h13, List.any_nil, Bool.false_eq_true, false_iff]
      rintro ⟨hc, -⟩
      omega

/-- **C8: counterexample.**  The 10x5 board has `min(width, height) = 5 < 9`,
so the claim requires the center-proximity scheme there; but the opening
feature (the board is empty, so the filled ratio 0 is below 0.25) awards 8 at
the corner (0,0) — taxicab distance 7 from the centre (2,5) — and 0 at the
centre itself, because the code branches on `width ≥ 9` alone. -/
theorem claim_C8_counterexample :
    min (Board.new 10 5).width (Board.new 10 5).height < 9 ∧
    getOpeningScore (Board.new 10 5) 0 0 Stone.BLACK = 8 ∧
    getOpeningScore (Board.new 10 5) 2 5 Stone.BLACK = 0 := by
  decide

/-- **C8 (amended).**  The opening feature is nonnegative, and contributes a
nonzero score only on boards of positive area whose filled-cell ratio is
below 0.25; in that phase, on every board with *width* ≥ 9 it awards 15 at
the star points of the width-based standard handicap layout (characterized
by `starSpec`) plus `8 - d` for corner distance `d ≤ 3` taxicab steps, while
on every board with width < 9 it awards a center-proximity bonus instead
(12 within 1 step of the centre, 6 within 2). -/
theorem claim_C8_amended (b : Board) (row col : Int) (playerStone : Stone) :
    0 ≤ getOpeningScore b row col playerStone ∧
    (getOpeningScore b row col playerStone ≠ 0 →
      0 < b.width * b.height ∧
        (totalStonesOnBoard b : ℚ) / ((b.width * b.height : Nat) : ℚ) < 1/4) ∧
    (0 < b.width * b.height →
      (totalStonesOnBoard b : ℚ) / ((b.width * b.height : Nat) : ℚ) < 1/4 →
      (b.width ≥ 9 →
        getOpeningScore b row col playerStone =
          (if isStarPoint b row col = true then 15 else 0) +
          (if getCornerDistance b row col ≤ 3 then
            8 - (getCornerDistance b row col : ℚ)
          else 0)) ∧
      (b.width < 9 →
        getOpeningScore b row col playerStone =
          (if (((row - ((b.height / 2 : Nat) : Int)).natAbs : Int) +
              ((col - ((b.width / 2 : Nat) : Int)).natAbs : Int)) ≤ 1 then 12
          else if (((row - ((b.height / 2 : Nat) : Int)).natAbs : Int) +
              ((col - ((b.width / 2 : Nat) : Int)).natAbs : Int)) ≤ 2 then 6
          else 0))) ∧
    ∀ r c : Int, isStarPoint b r c = true ↔ starSpec b r c := by
  refine ⟨?_, ?_, ?_, fun r c => isStarPoint_iff b r c⟩
  · simp only [getOpeningScore]
    split_ifs with hg h9 hst hcd hcd2 hd1 hd2 <;> try norm_num
    · have hc : ((getCornerDistance b row col : ℚ)) ≤ 3 := by exact_mod_cast hcd
      linarith
    · have hc : ((getCornerDistance b row col : ℚ)) ≤ 3 := by exact_mod_cast hcd2
      linarith
  · intro hne
    by_contra hg
    exact hne (by simp only [getOpeningScore]; rw [if_neg hg])
  · intro hpos hlt
    constructor
    · intro h9
      simp only [getOpeningScore]
      rw [if_pos ⟨hpos, hlt⟩, if_pos h9]
    · intro h9
      simp only [getOpeningScore]
      rw [if_pos ⟨hpos, hlt⟩, if_neg (by omega)]

/-- Witness for C8 on the empty 13x13 board at the corner star point (2,2):
the amended theorem's opening-phase formula applies and yields 15 + 4. -/
theorem claim_C8_witness :
    getOpeningScore (Board.new 13 13) 2 2 Stone.BLACK =
      (if isStarPoint (Board.new 13 13) 2 2 = true then 15 else 0) +
      (if getCornerDistance (Board.new 13 13) 2 2 ≤ 3 then
        8 - (getCornerDistance (Board.new 13 13) 2 2 : ℚ)
      else 0) ∧
    isStarPoint (Board.new 13 13) 2 2 = true :=
  ⟨((claim_C8_amended (Board.new 13 13) 2 2 Stone.BLACK).2.2.1
      (by decide) (by decide)).1 (by decide),
    (((claim_C8_amended (Board.new 13 13) 2 2 Stone.BLACK).2.2.2 2 2)).mpr
      (by decide)⟩

/-! ### `src/server.ts` (game simulation helpers)

`getConnectedGroup`'s while-loop over an explicit stack is embedded as the
fuel recursion `ccLoop`; the Lean list models the JS array with its head at
the array's *end*, so `stack.pop()` is head pattern-matching and the four
neighbour pushes are sequential conses (the JS pops them in reverse push
order, exactly as head-consing yields).  The fuel `5 * (width * height) + 2`
is proved sufficient below: every iteration pops one entry, and an entry
survives re-pushing only by newly visiting a valid cell. -/

def Color.opposite : Color → Color
  | Color.black => Color.white
  | Color.white => Color.black

def neighborsOf (row col : Int) : List (Int × Int) :=
  directions.map (fun d => (row + d.1, col + d.2))

def ccLoop (b : Board) (stoneType : Stone) :
    Nat → List (Int × Int) → Finset (Int × Int) → List (Int × Int) →
    List (Int × Int) × Finset (Int × Int)
  | 0, _, visited, group => (group, visited)
  | _ + 1, [], visited, group => (group, visited)
  | fuel + 1, p :: rest, visited, group =>
    if p ∈ visited then ccLoop b stoneType fuel rest visited group
    else
      let visited1 := insert p visited
      if b.getStone p.1 p.2 = stoneType then
        let stack1 := (neighborsOf p.1 p.2).foldl
          (fun st n =>
            if b.isValidPosition n.1 n.2 = true ∧ n ∉ visited1 then n :: st
            else st) rest
        ccLoop b stoneType fuel stack1 visited1 (group ++ [p])
      else ccLoop b stoneType fuel rest visited1 group

def getConnectedGroup (b : Board) (startRow startCol : Int) (stoneType : Stone) :
    List (Int × Int) :=
  (ccLoop b stoneType (5 * (b.width * b.height) + 2) [(startRow, startCol)] ∅ []).1

def hasNoLiberties (b : Board) (group : List (Int × Int)) : Bool :=
  group.all (fun p =>
    (neighborsOf p.1 p.2).all (fun n =>
      !(b.isValidPosition n.1 n.2 && decide (b.getStone n.1 n.2 = Stone.NONE))))

def detectCaptures (b : Board) (justPlayedRow justPlayedCol : Int)
    (playerColor : Color) : List (Int × Int) :=
  (neighborsOf justPlayedRow justPlayedCol).foldl
    (fun captures n =>
      if b.isValidPosition n.1 n.2 = true ∧
          b.getStone n.1 n.2 = playerColor.opponentStone then
        if hasNoLiberties b
            (getConnectedGroup b n.1 n.2 playerColor.opponentStone) = true then
          captures ++ getConnectedGroup b n.1 n.2 playerColor.opponentStone
        else captures
      else captures) []

/-- The `capturedStones.forEach(([row, col]) => board.setStone(row, col, 0))`
loop of `simulateNPCGame`. -/
def removeCaptured (b : Board) (captures : List (Int × Int)) : Board :=
  captures.foldl (fun bd p => bd.setStone p.1 p.2 Stone.NONE) b

def detectKo (boardBefore boardAfter : Board) (moveRow moveCol : Int)
    (capturedStones : List (Int × Int)) : Option (Int × Int) :=
  match capturedStones with
  | [p] => some (p.1 + 1, p.2 + 1)
  | _ => none

/-- JS string indexing `s[i]`: `undefined` (here `none`) when out of range. -/
def jsCharAt (s : List Char) (i : Int) : Option Char :=
  if 0 ≤ i ∧ i < (s.length : Int) then some (s.getD i.toNat ' ') else none

def boardStateToString (b : Board) (koPosition : Option (Int × Int)) : List Char :=
  (List.range b.height).flatMap (fun row =>
    (List.range b.width).map (fun col =>
      if koPosition = some (((row : Nat) : Int) + 1, ((col : Nat) : Int) + 1) then 'x'
      else if b.getStone (row : Int) (col : Int) = Stone.BLACK then 'B'
      else if b.getStone (row : Int) (col : Int) = Stone.WHITE then 'W'
      else '.'))

def getNPCMoveWithKo (b : Board) (color : Color) (boardStateString : List Char)
    (rand : Int → Int → ℚ) : Option (Int × Int) :=
  match calculateMove b color rand with
  | none => some (-1, -1)
  | some npcMove =>
    if jsCharAt boardStateString
        ((npcMove.1 - 1) * (b.width : Int) + (npcMove.2 - 1)) = some 'x' then
      some (-1, -1)
    else some npcMove

/-! ### Declarative connectivity (from the specification)

A "group" in the spec is the orthogonally connected component of same-colour
stones; `connectedTo` is its reflexive-transitive closure formulation. -/

def adjacentCell (p q : Int × Int) : Prop := q ∈ neighborsOf p.1 p.2

def sameStoneStep (b : Board) (stone : Stone) (p q : Int × Int) : Prop :=
  adjacentCell p q ∧ b.isValidPosition q.1 q.2 = true ∧ b.getStone q.1 q.2 = stone

def connectedTo (b : Board) (stone : Stone) (p q : Int × Int) : Prop :=
  Relation.ReflTransGen (sameStoneStep b stone) p q

theorem Board.getStone_of_not_valid (b : Board) (row col : Int)
    (h : ¬ b.isValidPosition row col = true) : b.getStone row col = Stone.NONE := by
  unfold Board.getStone
  simp [h]

theorem Board.setStone_of_not_valid (b : Board) (row col : Int) (s : Stone)
    (h : ¬ b.isValidPosition row col = true) : b.setStone row col s = b := by
  unfold Board.setStone
  simp [h]

theorem neighborsOf_eq (row col : Int) :
    neighborsOf row col =
      [(row - 1, col), (row + 1, col), (row, col - 1), (row, col + 1)] := by
  simp only [neighborsOf, directions, List.map_cons, List.map_nil, sub_eq_add_neg,
    add_zero]

theorem neighborsOf_nodup (row col : Int) : (neighborsOf row col).Nodup := by
  rw [neighborsOf_eq]
  simp only [List.nodup_cons, List.mem_cons, List.not_mem_nil, or_false,
    List.mem_singleton, List.nodup_nil, and_true, Prod.mk.injEq, not_or,
    true_and, not_false_eq_true]
  omega

theorem connectedTo_stone (b : Board) (stone : Stone) (p q : Int × Int)
    (h : connectedTo b stone p q) (hp : b.getStone p.1 p.2 = stone)
    (hv : b.isValidPosition p.1 p.2 = true) :
    b.getStone q.1 q.2 = stone ∧ b.isValidPosition q.1 q.2 = true := by
  induction h with
  | refl => exact ⟨hp, hv⟩
  | tail _ hstep _ => exact ⟨hstep.2.2, hstep.2.1⟩

theorem removeCaptured_getStone (captures : List (Int × Int)) :
    ∀ (b : Board) (q : Int × Int),
      (removeCaptured b captures).getStone q.1 q.2 =
        if q ∈ captures then Stone.NONE else b.getStone q.1 q.2 := by
  induction captures with
  | nil => intro b q; simp [removeCaptured]
  | cons p rest ih =>
    intro b q
    show (removeCaptured (b.setStone p.1 p.2 Stone.NONE) rest).getStone q.1 q.2 = _
    rw [ih]
    by_cases hq : q ∈ rest
    · rw [if_pos hq, if_pos (List.mem_cons_of_mem p hq)]
    · rw [if_neg hq]
      by_cases hqp : q = p
      · subst hqp
        rw [if_pos (List.mem_cons_self q rest)]
        by_cases hv : b.isValidPosition q.1 q.2 = true
        · exact Board.getStone_setStone_same b q.1 q.2 Stone.NONE hv
        · rw [Board.setStone_of_not_valid b q.1 q.2 Stone.NONE hv]
          exact Board.getStone_of_not_valid b q.1 q.2 hv
      · rw [if_neg (by simp only [List.mem_cons, not_or]; exact ⟨hqp, hq⟩)]
        exact Board.getStone_setStone_ne b p.1 p.2 q.1 q.2 Stone.NONE (by
          intro hc
          exact hqp (Prod.ext hc.1 hc.2))

theorem removeCaptured_width (captures : List (Int × Int)) :
    ∀ b : Board, (removeCaptured b captures).width = b.width := by
  induction captures with
  | nil => intro b; rfl
  | cons p rest ih =>
    intro b
    show (removeCaptured (b.setStone p.1 p.2 Stone.NONE) rest).width = b.width
    rw [ih, Board.width_setStone]

theorem removeCaptured_height (captures : List (Int × Int)) :
    ∀ b : Board, (removeCaptured b captures).height = b.height := by
  induction captures with
  | nil => intro b; rfl
  | cons p rest ih =>
    intro b
    show (removeCaptured (b.setStone p.1 p.2 Stone.NONE) rest).height = b.height
    rw [ih, Board.height_setStone]

theorem hasNoLiberties_iff (b : Board) (group : List (Int × Int)) :
    hasNoLiberties b group = true ↔
      ∀ p ∈ group, ∀ n ∈ neighborsOf p.1 p.2,
        b.isValidPosition n.1 n.2 = true → b.getStone n.1 n.2 ≠ Stone.NONE := by
  unfold hasNoLiberties
  simp only [List.all_eq_true, Bool.not_eq_true', Bool.and_eq_false_iff,
    decide_eq_false_iff_not]
  constructor
  · intro h p hp n hn hv
    rcases h p hp n hn with hc | hc
    · rw [hv] at hc; exact absurd hc (by simp)
    · exact hc
  · intro h p hp n hn
    by_cases hv : b.isValidPosition n.1 n.2 = true
    · exact Or.inr (h p hp n hn hv)
    · exact Or.inl (by simpa using hv)

theorem foldl_if_append_eq {α β : Type} (P Q : α → Prop) [DecidablePred P]
    [DecidablePred Q] (g : α → List β) :
    ∀ (l : List α) (init : List β),
      l.foldl (fun acc n => if P n then (if Q n then acc ++ g n else acc) else acc)
          init =
        init ++ (l.filter (fun n => decide (P n) && decide (Q n))).flatMap g := by
  intro l
  induction l with
  | nil => intro init; simp
  | cons a t ih =>
    intro init
    simp only [List.foldl_cons]
    by_cases hP : P a
    · by_cases hQ : Q a
      · rw [if_pos hP, if_pos hQ, ih]
        simp [hP, hQ, List.filter_cons]
      · rw [if_pos hP, if_neg hQ, ih]
        simp [hP, hQ, List.filter_cons]
    · rw [if_neg hP, ih]
      simp [hP, List.filter_cons]

theorem detectCaptures_eq (b : Board) (r c : Int) (color : Color) :
    detectCaptures b r c color =
      ((neighborsOf r c).filter (fun n =>
          decide (b.isValidPosition n.1 n.2 = true ∧
            b.getStone n.1 n.2 = color.opponentStone) &&
          decide (hasNoLiberties b
            (getConnectedGroup b n.1 n.2 color.opponentStone) = true))).flatMap
        (fun n => getConnectedGroup b n.1 n.2 color.opponentStone) := by
  unfold detectCaptures
  rw [foldl_if_append_eq
    (fun n => b.isValidPosition n.1 n.2 = true ∧
      b.getStone n.1 n.2 = color.opponentStone)
    (fun n => hasNoLiberties b
      (getConnectedGroup b n.1 n.2 color.opponentStone) = true)
    (fun n => getConnectedGroup b n.1 n.2 color.opponentStone)
    (neighborsOf r c) []]
  rfl

theorem mem_detectCaptures (b : Board) (r c : Int) (color : Color) (q : Int × Int) :
    q ∈ detectCaptures b r c color ↔
      ∃ n ∈ neighborsOf r c, b.isValidPosition n.1 n.2 = true ∧
        b.getStone n.1 n.2 = color.opponentStone ∧
        hasNoLiberties b (getConnectedGroup b n.1 n.2 color.opponentStone) = true ∧
        q ∈ getConnectedGroup b n.1 n.2 color.opponentStone := by
  rw [detectCaptures_eq]
  simp only [List.mem_flatMap, List.mem_filter, Bool.and_eq_true, decide_eq_true_eq]
  constructor
  · rintro ⟨n, ⟨hn, ⟨hv, hs⟩, hnl⟩, hq⟩
    exact ⟨n, hn, hv, hs, hnl, hq⟩
  · rintro ⟨n, hn, hv, hs, hnl, hq⟩
    exact ⟨n, ⟨hn, ⟨hv, hs⟩, hnl⟩, hq⟩

theorem foldl_cond_cons_length {α : Type} (P : α → Prop) [DecidablePred P] :
    ∀ (l init : List α),
      (l.foldl (fun st n => if P n then n :: st else st) init).length ≤
        init.length + l.length := by
  intro l
  induction l with
  | nil => intro init; simp
  | cons a t ih =>
    intro init
    simp only [List.foldl_cons, List.length_cons]
    by_cases hP : P a
    · rw [if_pos hP]
      exact le_trans (ih (a :: init)) (by simp only [List.length_cons]; omega)
    · rw [if_neg hP]
      exact le_trans (ih init) (by omega)

theorem mem_foldl_cond_cons_of_init {α : Type} (P : α → Prop) [DecidablePred P] :
    ∀ (l init : List α) (x : α), x ∈ init →
      x ∈ l.foldl (fun st n => if P n then n :: st else st) init := by
  intro l
  induction l with
  | nil => intro init x hx; simpa using hx
  | cons a t ih =>
    intro init x hx
    simp only [List.foldl_cons]
    by_cases hP : P a
    · rw [if_pos hP]; exact ih _ x (List.mem_cons_of_mem a hx)
    · rw [if_neg hP]; exact ih _ x hx

theorem mem_foldl_cond_cons_of_mem {α : Type} (P : α → Prop) [DecidablePred P] :
    ∀ (l init : List α) (x : α), x ∈ l → P x →
      x ∈ l.foldl (fun st n => if P n then n :: st else st) init := by
  intro l
  induction l with
  | nil => intro init x hx _; simp at hx
  | cons a t ih =>
    intro init x hx hPx
    simp only [List.foldl_cons]
    rcases List.mem_cons.mp hx with rfl | hx2
    · rw [if_pos hPx]
      exact mem_foldl_cond_cons_of_init P t (x :: init) x (List.mem_cons_self x init)
    · by_cases hP : P a
      · rw [if_pos hP]; exact ih _ x hx2 hPx
      · rw [if_neg hP]; exact ih _ x hx2 hPx

theorem mem_foldl_cond_cons {α : Type} (P : α → Prop) [DecidablePred P] :
    ∀ (l init : List α) (x : α),
      x ∈ l.foldl (fun st n => if P n then n :: st else st) init →
      x ∈ init ∨ (x ∈ l ∧ P x) := by
  intro l
  induction l with
  | nil => intro init x hx; exact Or.inl (by simpa using hx)
  | cons a t ih =>
    intro init x hx
    simp only [List.foldl_cons] at hx
    by_cases hP : P a
    · rw [if_pos hP] at hx
      rcases ih _ x hx with hin | ⟨hmem, hPx⟩
      · rcases List.mem_cons.mp hin with rfl | h2
        · exact Or.inr ⟨List.mem_cons_self x t, hP⟩
        · exact Or.inl h2
      · exact Or.inr ⟨List.mem_cons_of_mem a hmem, hPx⟩
    · rw [if_neg hP] at hx
      rcases ih _ x hx with hin | ⟨hmem, hPx⟩
      · exact Or.inl hin
      · exact Or.inr ⟨List.mem_cons_of_mem a hmem, hPx⟩

theorem ccLoop_visited_mono (b : Board) (stoneType : Stone) :
    ∀ (fuel : Nat) (stack : List (Int × Int)) (visited : Finset (Int × Int))
      (group : List (Int × Int)) (x : Int × Int), x ∈ visited →
      x ∈ (ccLoop b stoneType fuel stack visited group).2 := by
  intro fuel
  induction fuel with
  | zero => intro stack visited group x hx; exact hx
  | succ fuel ih =>
    intro stack visited group x hx
    cases stack with
    | nil => exact hx
    | cons p rest =>
      simp only [ccLoop]
      by_cases hpv : p ∈ visited
      · rw [if_pos hpv]; exact ih rest visited group x hx
      · rw [if_neg hpv]
        by_cases hst : b.getStone p.1 p.2 = stoneType
        · rw [if_pos hst]
          exact ih _ _ _ x (Finset.mem_insert_of_mem hx)
        · rw [if_neg hst]
          exact ih _ _ _ x (Finset.mem_insert_of_mem hx)

theorem ccLoop_basic (b : Board) (stoneType : Stone) :
    ∀ (fuel : Nat) (stack : List (Int × Int)) (visited : Finset (Int × Int))
      (group : List (Int × Int)),
      (∀ x ∈ group, x ∈ visited) → group.Nodup →
      (∀ x ∈ group, b.getStone x.1 x.2 = stoneType) →
      (∀ x ∈ group, x ∈ (ccLoop b stoneType fuel stack visited group).1) ∧
      (∀ x ∈ (ccLoop b stoneType fuel stack visited group).1,
        b.getStone x.1 x.2 = stoneType) ∧
      (ccLoop b stoneType fuel stack visited group).1.Nodup := by
  intro fuel
  induction fuel with
  | zero => exact fun stack visited group hsub hnd hst => ⟨fun x hx => hx, hst, hnd⟩
  | succ fuel ih =>
    intro stack visited group hsub hnd hst
    cases stack with
    | nil => exact ⟨fun x hx => hx, hst, hnd⟩
    | cons p rest =>
      simp only [ccLoop]
      by_cases hpv : p ∈ visited
      · rw [if_pos hpv]
        exact ih rest visited group hsub hnd hst
      · rw [if_neg hpv]
        by_cases hps : b.getStone p.1 p.2 = stoneType
        · rw [if_pos hps]
          have hpng : p ∉ group := fun hc => hpv (hsub p hc)
          have hsub' : ∀ x ∈ group ++ [p], x ∈ insert p visited := by
            intro x hx
            rcases List.mem_append.mp hx with h1 | h2
            · exact Finset.mem_insert_of_mem (hsub x h1)
            · rw [List.mem_singleton.mp h2]; exact Finset.mem_insert_self p visited
          have hnd' : (group ++ [p]).Nodup :=
            hnd.append (List.nodup_singleton p)
              (fun a ha hb => hpng (by rwa [← List.mem_singleton.mp hb]))
          have hst' : ∀ x ∈ group ++ [p], b.getStone x.1 x.2 = stoneType := by
            intro x hx
            rcases List.mem_append.mp hx with h1 | h2
            · exact hst x h1
            · rw [List.mem_singleton.mp h2]; exact hps
          obtain ⟨c1, c2, c3⟩ := ih _ _ _ hsub' hnd' hst'
          exact ⟨fun x hx => c1 x (List.mem_append_left _ hx), c2, c3⟩
        · rw [if_neg hps]
          exact ih rest (insert p visited) group
            (fun x hx => Finset.mem_insert_of_mem (hsub x hx)) hnd hst

theorem ccLoop_connected (b : Board) (stoneType : Stone) (start : Int × Int) :
    ∀ (fuel : Nat) (stack : List (Int × Int)) (visited : Finset (Int × Int))
      (group : List (Int × Int)),
      (∀ p ∈ stack, p = start ∨ ∃ x, connectedTo b stoneType start x ∧
        b.getStone x.1 x.2 = stoneType ∧ adjacentCell x p ∧
        b.isValidPosition p.1 p.2 = true) →
      (∀ x ∈ group, connectedTo b stoneType start x) →
      ∀ x ∈ (ccLoop b stoneType fuel stack visited group).1,
        connectedTo b stoneType start x := by
  intro fuel
  induction fuel with
  | zero => exact fun stack visited group _ hg => hg
  | succ fuel ih =>
    intro stack visited group hstack hg
    cases stack with
    | nil => exact hg
    | cons p rest =>
      simp only [ccLoop]
      by_cases hpv : p ∈ visited
      · rw [if_pos hpv]
        exact ih rest visited group (fun q hq => hstack q (List.mem_cons_of_mem p hq)) hg
      · rw [if_neg hpv]
        by_cases hps : b.getStone p.1 p.2 = stoneType
        · rw [if_pos hps]
          have hpconn : connectedTo b stoneType start p := by
            rcases hstack p (List.mem_cons_self p rest) with rfl | ⟨x, hx, hxs, hadj, hpv2⟩
            · exact Relation.ReflTransGen.refl
            · exact hx.tail ⟨hadj, hpv2, hps⟩
          refine ih _ _ _ ?_ ?_
          · intro q hq
            rcases mem_foldl_cond_cons _ _ _ q hq with h1 | ⟨hmem, hvq, -⟩
            · exact hstack q (List.mem_cons_of_mem p h1)
            · exact Or.inr ⟨p, hpconn, hps, hmem, hvq⟩
          · intro x hx
            rcases List.mem_append.mp hx with h1 | h2
            · exact hg x h1
            · rw [List.mem_singleton.mp h2]; exact hpconn
        · rw [if_neg hps]
          exact ih rest _ group
            (fun q hq => hstack q (List.mem_cons_of_mem p hq)) hg

theorem ccLoop_complete (b : Board) (stoneType : Stone) (hne : stoneType ≠ Stone.NONE) :
    ∀ (fuel : Nat) (stack : List (Int × Int)) (visited : Finset (Int × Int))
      (group : List (Int × Int)),
      stack.length + 5 * (cellsFinset b \ visited).card + 1 ≤ fuel →
      (∀ x ∈ group, x ∈ visited) → group.Nodup →
      (∀ x ∈ group, b.getStone x.1 x.2 = stoneType) →
      (∀ p ∈ stack, p ∈ (ccLoop b stoneType fuel stack visited group).2) ∧
      (∀ p ∈ (ccLoop b stoneType fuel stack visited group).2,
        p ∈ visited ∨ (b.getStone p.1 p.2 = stoneType →
          p ∈ (ccLoop b stoneType fuel stack visited group).1)) ∧
      (∀ p ∈ (ccLoop b stoneType fuel stack visited group).1,
        p ∈ group ∨ ∀ n ∈ neighborsOf p.1 p.2, b.isValidPosition n.1 n.2 = true →
          n ∈ (ccLoop b stoneType fuel stack visited group).2) := by
  intro fuel
  induction fuel with
  | zero =>
    intro stack visited group hf _ _ _
    exact absurd hf (by omega)
  | succ fuel ih =>
    intro stack visited group hf hsub hnd hstg
    cases stack with
    | nil =>
      exact ⟨fun p hp => absurd hp (List.not_mem_nil p),
        fun p hp => Or.inl hp, fun p hp => Or.inl hp⟩
    | cons p rest =>
      simp only [ccLoop]
      by_cases hpv : p ∈ visited
      · rw [if_pos hpv]
        have hf2 : rest.length + 5 * (cellsFinset b \ visited).card + 1 ≤ fuel := by
          simp only [List.length_cons] at hf; omega
        obtain ⟨c6, c7, c8⟩ := ih rest visited group hf2 hsub hnd hstg
        refine ⟨?_, c7, c8⟩
        intro q hq
        rcases List.mem_cons.mp hq with rfl | h2
        · exact ccLoop_visited_mono b stoneType fuel rest visited group q hpv
        · exact c6 q h2
      · rw [if_neg hpv]
        by_cases hps : b.getStone p.1 p.2 = stoneType
        · rw [if_pos hps]
          have hpvld : b.isValidPosition p.1 p.2 = true :=
            Board.isValidPosition_of_getStone_ne_none b p.1 p.2 (by
              rw [hps]; exact hne)
          have hpsd : p ∈ cellsFinset b \ visited :=
            Finset.mem_sdiff.mpr ⟨(mem_cellsFinset b p).mpr hpvld, hpv⟩
          have hcard : (cellsFinset b \ insert p visited).card =
              (cellsFinset b \ visited).card - 1 := by
            rw [Finset.sdiff_insert, Finset.card_erase_of_mem hpsd]
          have hcpos : 1 ≤ (cellsFinset b \ visited).card :=
            Finset.card_pos.mpr ⟨p, hpsd⟩
          have hlen := foldl_cond_cons_length
            (fun n => b.isValidPosition n.1 n.2 = true ∧ n ∉ insert p visited)
            (neighborsOf p.1 p.2) rest
          have hnlen : (neighborsOf p.1 p.2).length = 4 := rfl
          have hf2 : ((neighborsOf p.1 p.2).foldl
              (fun st n =>
                if b.isValidPosition n.1 n.2 = true ∧ n ∉ insert p visited then
                  n :: st
                else st) rest).length +
              5 * (cellsFinset b \ insert p visited).card + 1 ≤ fuel := by
            rw [hcard]
            rw [hnlen] at hlen
            simp only [List.length_cons] at hf
            omega
          have hpng : p ∉ group := fun hc => hpv (hsub p hc)
          have hsub2 : ∀ x ∈ group ++ [p], x ∈ insert p visited := by
            intro x hx
            rcases List.mem_append.mp hx with h1 | h2
            · exact Finset.mem_insert_of_mem (hsub x h1)
            · rw [List.mem_singleton.mp h2]; exact Finset.mem_insert_self p visited
          have hnd2 : (group ++ [p]).Nodup :=
            hnd.append (List.nodup_singleton p)
              (fun a ha hb => hpng (by rwa [← List.mem_singleton.mp hb]))
          have hst2 : ∀ x ∈ group ++ [p], b.getStone x.1 x.2 = stoneType := by
            intro x hx
            rcases List.mem_append.mp hx with h1 | h2
            · exact hstg x h1
            · rw [List.mem_singleton.mp h2]; exact hps
          obtain ⟨c6, c7, c8⟩ := ih _ (insert p visited) (group ++ [p]) hf2 hsub2 hnd2 hst2
          refine ⟨?_, ?_, ?_⟩
          · intro q hq
            rcases List.mem_cons.mp hq with rfl | h2
            · exact ccLoop_visited_mono b stoneType fuel _ _ _ q
                (Finset.mem_insert_self q visited)
            · exact c6 q (mem_foldl_cond_cons_of_init _ _ rest q h2)
          · intro q hq
            rcases c7 q hq with hv1 | himp
            · rcases Finset.mem_insert.mp hv1 with rfl | hv2
              · refine Or.inr (fun _ => ?_)
                exact (ccLoop_basic b stoneType fuel _ (insert q visited)
                  (group ++ [q]) hsub2 hnd2 hst2).1 q
                  (List.mem_append_right group (List.mem_singleton_self q))
              · exact Or.inl hv2
            · exact Or.inr himp
          · intro q hq
            rcases c8 q hq with hg1 | hcl
            · rcases List.mem_append.mp hg1 with h1 | h2
              · exact Or.inl h1
              · rw [List.mem_singleton.mp h2]
                refine Or.inr (fun n hn hvn => ?_)
                by_cases hnv1 : n ∈ insert p visited
                · exact ccLoop_visited_mono b stoneType fuel _ _ _ n hnv1
                · exact c6 n (mem_foldl_cond_cons_of_mem _ _ rest n hn ⟨hvn, hnv1⟩)
            · exact Or.inr hcl
        · rw [if_neg hps]
          have hcle : (cellsFinset b \ insert p visited).card ≤
              (cellsFinset b \ visited).card :=
            Finset.card_le_card
              (Finset.sdiff_subset_sdiff (Finset.Subset.refl _)
                (Finset.subset_insert p visited))
          have hf2 : rest.length + 5 * (cellsFinset b \ insert p visited).card + 1 ≤
              fuel := by
            simp only [List.length_cons] at hf; omega
          obtain ⟨c6, c7, c8⟩ := ih rest (insert p visited) group hf2
            (fun x hx => Finset.mem_insert_of_mem (hsub x hx)) hnd hstg
          refine ⟨?_, ?_, c8⟩
          · intro q hq
            rcases List.mem_cons.mp hq with rfl | h2
            · exact ccLoop_visited_mono b stoneType fuel rest _ group q
                (Finset.mem_insert_self q visited)
            · exact c6 q h2
          · intro q hq
            rcases c7 q hq with hv1 | himp
            · rcases Finset.mem_insert.mp hv1 with rfl | hv2
              · exact Or.inr (fun hqs => absurd hqs hps)
              · exact Or.inl hv2
            · exact Or.inr himp

theorem getConnectedGroup_stone (b : Board) (r c : Int) (stoneType : Stone) :
    ∀ q ∈ getConnectedGroup b r c stoneType, b.getStone q.1 q.2 = stoneType := by
  intro q hq
  exact (ccLoop_basic b stoneType (5 * (b.width * b.height) + 2) [(r, c)] ∅ []
    (by simp) List.nodup_nil (by simp)).2.1 q hq

theorem getConnectedGroup_nodup (b : Board) (r c : Int) (stoneType : Stone) :
    (getConnectedGroup b r c stoneType).Nodup :=
  (ccLoop_basic b stoneType (5 * (b.width * b.height) + 2) [(r, c)] ∅ []
    (by simp) List.nodup_nil (by simp)).2.2

theorem mem_getConnectedGroup (b : Board) (start : Int × Int) (stoneType : Stone)
    (hne : stoneType ≠ Stone.NONE)
    (hstart : b.getStone start.1 start.2 = stoneType) :
    ∀ q, q ∈ getConnectedGroup b start.1 start.2 stoneType ↔
      connectedTo b stoneType start q := by
  intro q
  unfold getConnectedGroup
  have hfuel : ([(start.1, start.2)] : List (Int × Int)).length +
      5 * (cellsFinset b \ ∅).card + 1 ≤ 5 * (b.width * b.height) + 2 := by
    rw [Finset.sdiff_empty, card_cellsFinset]
    simp only [List.length_singleton]
    rw [Nat.mul_comm b.height b.width]
    omega
  obtain ⟨c6, c7, c8⟩ := ccLoop_complete b stoneType hne
    (5 * (b.width * b.height) + 2) [(start.1, start.2)] ∅ [] hfuel
    (by simp) List.nodup_nil (by simp)
  constructor
  · intro hq
    refine ccLoop_connected b stoneType start (5 * (b.width * b.height) + 2)
      [(start.1, start.2)] ∅ [] ?_ (by simp) q hq
    intro p hp
    rw [List.mem_singleton.mp hp]
    exact Or.inl Prod.mk.eta
  · intro hq
    have hstartmem : start ∈ (ccLoop b stoneType (5 * (b.width * b.height) + 2)
        [(start.1, start.2)] ∅ []).1 := by
      have h1 : start ∈ (ccLoop b stoneType (5 * (b.width * b.height) + 2)
          [(start.1, start.2)] ∅ []).2 := by
        have := c6 (start.1, start.2) (List.mem_singleton_self _)
        rwa [Prod.mk.eta] at this
      rcases c7 start h1 with hv | himp
      · exact absurd hv (Finset.not_mem_empty start)
      · exact himp hstart
    induction hq with
    | refl => exact hstartmem
    | @tail mid q2 _ hstep ihq =>
      rcases c8 mid ihq with hgl | hcl
      · exact absurd hgl (List.not_mem_nil mid)
      · have hy2 : q2 ∈ (ccLoop b stoneType (5 * (b.width * b.height) + 2)
            [(start.1, start.2)] ∅ []).2 := hcl q2 hstep.1 hstep.2.1
        rcases c7 q2 hy2 with hv | himp
        · exact absurd hv (Finset.not_mem_empty q2)
        · exact himp hstep.2.2

theorem getConnectedGroup_start_mem (b : Board) (r c : Int) (stoneType : Stone)
    (hne : stoneType ≠ Stone.NONE) (hst : b.getStone r c = stoneType) :
    (r, c) ∈ getConnectedGroup b r c stoneType :=
  (mem_getConnectedGroup b (r, c) stoneType hne hst (r, c)).mpr
    Relation.ReflTransGen.refl

theorem cellsFinset_eq_of_dims (b b2 : Board) (hw : b2.width = b.width)
    (hh : b2.height = b.height) : cellsFinset b2 = cellsFinset b := by
  unfold cellsFinset
  rw [hw, hh]

theorem countStones_removeCaptured (b1 : Board) (caps : List (Int × Int)) (s : Stone)
    (hs : s ≠ Stone.NONE) (hcaps : ∀ q ∈ caps, b1.getStone q.1 q.2 = s) :
    countStones (removeCaptured b1 caps) s =
      countStones b1 s - caps.dedup.length := by
  unfold countStones
  rw [cellsFinset_eq_of_dims b1 (removeCaptured b1 caps)
    (removeCaptured_width caps b1) (removeCaptured_height caps b1)]
  have hset : (cellsFinset b1).filter
      (fun p => (removeCaptured b1 caps).getStone p.1 p.2 = s) =
      (cellsFinset b1).filter (fun p => b1.getStone p.1 p.2 = s) \ caps.toFinset := by
    ext q
    simp only [Finset.mem_filter, Finset.mem_sdiff, List.mem_toFinset]
    rw [removeCaptured_getStone caps b1 q]
    by_cases hq : q ∈ caps
    · rw [if_pos hq]
      constructor
      · rintro ⟨-, hc⟩
        exact absurd hc.symm hs
      · rintro ⟨-, habs⟩
        exact absurd hq habs
    · rw [if_neg hq]
      constructor
      · rintro ⟨h1, h2⟩
        exact ⟨⟨h1, h2⟩, hq⟩
      · rintro ⟨⟨h1, h2⟩, -⟩
        exact ⟨h1, h2⟩
  rw [hset]
  have hsubset : caps.toFinset ⊆
      (cellsFinset b1).filter (fun p => b1.getStone p.1 p.2 = s) := by
    intro q hq
    have hqc : q ∈ caps := List.mem_toFinset.mp hq
    have hqs : b1.getStone q.1 q.2 = s := hcaps q hqc
    refine Finset.mem_filter.mpr ⟨(mem_cellsFinset b1 q).mpr ?_, hqs⟩
    exact Board.isValidPosition_of_getStone_ne_none b1 q.1 q.2 (by rw [hqs]; exact hs)
  rw [Finset.card_sdiff hsubset, List.card_toFinset]

/-- **C1: counterexample.**  On the 3x1 board `W B W` (black just played the
middle cell), the white group adjacent to the move at (0,0) has exactly one
stone and zero liberties, yet applying the capture step drops the white
stone count by 2 (both single-stone white groups die simultaneously), not by
that group's size 1. -/
theorem claim_C1_counterexample :
    getConnectedGroup
        ((((Board.new 3 1).setStone 0 0 Stone.WHITE).setStone 0 2
          Stone.WHITE).setStone 0 1 Stone.BLACK) 0 0 Stone.WHITE = [(0, 0)] ∧
    hasNoLiberties
        ((((Board.new 3 1).setStone 0 0 Stone.WHITE).setStone 0 2
          Stone.WHITE).setStone 0 1 Stone.BLACK)
        (getConnectedGroup
          ((((Board.new 3 1).setStone 0 0 Stone.WHITE).setStone 0 2
            Stone.WHITE).setStone 0 1 Stone.BLACK) 0 0 Stone.WHITE) = true ∧
    countStones
        ((((Board.new 3 1).setStone 0 0 Stone.WHITE).setStone 0 2
          Stone.WHITE).setStone 0 1 Stone.BLACK) Stone.WHITE = 2 ∧
    countStones
        (removeCaptured
          ((((Board.new 3 1).setStone 0 0 Stone.WHITE).setStone 0 2
            Stone.WHITE).setStone 0 1 Stone.BLACK)
          (detectCaptures
            ((((Board.new 3 1).setStone 0 0 Stone.WHITE).setStone 0 2
              Stone.WHITE).setStone 0 1 Stone.BLACK) 0 1 Color.black))
        Stone.WHITE = 0 := by
  decide

/-- **C1 (amended).**  After placing `color` at `pos`, for every adjacent
opposing group with zero liberties (checked against the board immediately
after the placement, before any removal), every stone connected to that
neighbour appears in `capturedPositions` and reads Empty after removal; all
captured positions held opposing stones; and the opposing stone count drops
by exactly the number of distinct captured positions across all captured
groups. -/
theorem claim_C1_amended (b : Board) (pos : Int × Int) (color : Color)
    (hvalid : b.isValidPosition pos.1 pos.2 = true)
    (hempty : b.getStone pos.1 pos.2 = Stone.NONE) :
    (∀ n ∈ neighborsOf pos.1 pos.2,
      (b.setStone pos.1 pos.2 color.stone).isValidPosition n.1 n.2 = true →
      (b.setStone pos.1 pos.2 color.stone).getStone n.1 n.2 =
        color.opponentStone →
      hasNoLiberties (b.setStone pos.1 pos.2 color.stone)
        (getConnectedGroup (b.setStone pos.1 pos.2 color.stone) n.1 n.2
          color.opponentStone) = true →
      ∀ q, connectedTo (b.setStone pos.1 pos.2 color.stone)
          color.opponentStone n q →
        q ∈ detectCaptures (b.setStone pos.1 pos.2 color.stone) pos.1 pos.2
            color ∧
        (removeCaptured (b.setStone pos.1 pos.2 color.stone)
          (detectCaptures (b.setStone pos.1 pos.2 color.stone) pos.1 pos.2
            color)).getStone q.1 q.2 = Stone.NONE) ∧
    (∀ q ∈ detectCaptures (b.setStone pos.1 pos.2 color.stone) pos.1 pos.2 color,
      (b.setStone pos.1 pos.2 color.stone).getStone q.1 q.2 =
        color.opponentStone) ∧
    countStones
        (removeCaptured (b.setStone pos.1 pos.2 color.stone)
          (detectCaptures (b.setStone pos.1 pos.2 color.stone) pos.1 pos.2
            color)) color.opponentStone =
      countStones (b.setStone pos.1 pos.2 color.stone) color.opponentStone -
        (detectCaptures (b.setStone pos.1 pos.2 color.stone) pos.1 pos.2
          color).dedup.length := by
  have hne : color.opponentStone ≠ Stone.NONE := by cases color <;> decide
  generalize b.setStone pos.1 pos.2 color.stone = b1
  have hcapstone : ∀ q ∈ detectCaptures b1 pos.1 pos.2 color,
      b1.getStone q.1 q.2 = color.opponentStone := by
    intro q hq
    obtain ⟨n, hn, hnv, hns, hnl, hqg⟩ :=
      (mem_detectCaptures b1 pos.1 pos.2 color q).mp hq
    exact getConnectedGroup_stone b1 n.1 n.2 color.opponentStone q hqg
  refine ⟨?_, hcapstone, ?_⟩
  · intro n hn hnv hns hnl q hq
    have hqg : q ∈ getConnectedGroup b1 n.1 n.2 color.opponentStone :=
      (mem_getConnectedGroup b1 n color.opponentStone hne hns q).mpr hq
    have hqc : q ∈ detectCaptures b1 pos.1 pos.2 color :=
      (mem_detectCaptures b1 pos.1 pos.2 color q).mpr ⟨n, hn, hnv, hns, hnl, hqg⟩
    refine ⟨hqc, ?_⟩
    rw [removeCaptured_getStone, if_pos hqc]
  · exact countStones_removeCaptured b1 (detectCaptures b1 pos.1 pos.2 color)
      color.opponentStone hne hcapstone

/-- Witness for C1: black plays (0,1) on the 2x1 board `W .`; the lone white
stone is connected to itself, gets captured and removed, and the white count
drops by the single distinct captured position. -/
theorem claim_C1_witness :
    ((0 : Int), (0 : Int)) ∈ detectCaptures
        (((Board.new 2 1).setStone 0 0 Stone.WHITE).setStone 0 1 Stone.BLACK)
        0 1 Color.black ∧
    (removeCaptured
        (((Board.new 2 1).setStone 0 0 Stone.WHITE).setStone 0 1 Stone.BLACK)
        (detectCaptures
          (((Board.new 2 1).setStone 0 0 Stone.WHITE).setStone 0 1 Stone.BLACK)
          0 1 Color.black)).getStone 0 0 = Stone.NONE ∧
    countStones
        (removeCaptured
          (((Board.new 2 1).setStone 0 0 Stone.WHITE).setStone 0 1 Stone.BLACK)
          (detectCaptures
            (((Board.new 2 1).setStone 0 0 Stone.WHITE).setStone 0 1
              Stone.BLACK) 0 1 Color.black)) Stone.WHITE =
      countStones
          (((Board.new 2 1).setStone 0 0 Stone.WHITE).setStone 0 1 Stone.BLACK)
          Stone.WHITE -
        (detectCaptures
          (((Board.new 2 1).setStone 0 0 Stone.WHITE).setStone 0 1 Stone.BLACK)
          0 1 Color.black).dedup.length := by
  obtain ⟨h1, h2, h3⟩ := claim_C1_amended
    ((Board.new 2 1).setStone 0 0 Stone.WHITE) (0, 1) Color.black
    (by decide) (by decide)
  have h := h1 (0, 0) (by decide) (by decide) (by decide) (by decide) (0, 0)
    Relation.ReflTransGen.refl
  exact ⟨h.1, h.2, h3⟩

theorem eq_singleton_of_all_eq {α : Type} (l : List α) (p : α) (hnd : l.Nodup)
    (hall : ∀ x ∈ l, x = p) (hp : p ∈ l) : l = [p] := by
  cases l with
  | nil => exact absurd hp (List.not_mem_nil p)
  | cons a t =>
    have ha : a = p := hall a (List.mem_cons_self a t)
    subst ha
    cases t with
    | nil => rfl
    | cons y t2 =>
      have hy : y = a := hall y (List.mem_cons_of_mem a (List.mem_cons_self y t2))
      rw [List.nodup_cons] at hnd
      have hmem : a ∈ y :: t2 := by rw [hy]; exact List.mem_cons_self a t2
      exact absurd hmem hnd.1

/-- When the distinct captured positions form a singleton, the raw captured
list is that singleton: the one captured group is a one-stone group reachable
through exactly one qualifying neighbour. -/
theorem detectCaptures_single (b : Board) (r c : Int) (color : Color)
    (p : Int × Int) (h : (detectCaptures b r c color).dedup = [p]) :
    detectCaptures b r c color = [p] := by
  have hne : color.opponentStone ≠ Stone.NONE := by cases color <;> decide
  have hall : ∀ x ∈ detectCaptures b r c color, x = p := by
    intro x hx
    have hxm : x ∈ (detectCaptures b r c color).dedup := List.mem_dedup.mpr hx
    rw [h] at hxm
    exact List.mem_singleton.mp hxm
  have hpmem : p ∈ detectCaptures b r c color := by
    have hpm : p ∈ (detectCaptures b r c color).dedup := by
      rw [h]; exact List.mem_singleton_self p
    exact List.mem_dedup.mp hpm
  have hFall : ∀ x ∈ (neighborsOf r c).filter (fun n =>
      decide (b.isValidPosition n.1 n.2 = true ∧
        b.getStone n.1 n.2 = color.opponentStone) &&
      decide (hasNoLiberties b
        (getConnectedGroup b n.1 n.2 color.opponentStone) = true)), x = p := by
    intro x hx
    have hx2 := List.mem_filter.mp hx
    have hcond := hx2.2
    simp only [Bool.and_eq_true, decide_eq_true_eq] at hcond
    have hxs : (x.1, x.2) ∈ getConnectedGroup b x.1 x.2 color.opponentStone :=
      getConnectedGroup_start_mem b x.1 x.2 color.opponentStone hne hcond.1.2
    have hxc : x ∈ detectCaptures b r c color := by
      rw [Prod.mk.eta] at hxs
      exact (mem_detectCaptures b r c color x).mpr
        ⟨x, hx2.1, hcond.1.1, hcond.1.2, hcond.2, hxs⟩
    exact hall x hxc
  have hFnd : ((neighborsOf r c).filter (fun n =>
      decide (b.isValidPosition n.1 n.2 = true ∧
        b.getStone n.1 n.2 = color.opponentStone) &&
      decide (hasNoLiberties b
        (getConnectedGroup b n.1 n.2 color.opponentStone) = true))).Nodup :=
    (neighborsOf_nodup r c).filter _
  have hFne : (neighborsOf r c).filter (fun n =>
      decide (b.isValidPosition n.1 n.2 = true ∧
        b.getStone n.1 n.2 = color.opponentStone) &&
      decide (hasNoLiberties b
        (getConnectedGroup b n.1 n.2 color.opponentStone) = true)) ≠ [] := by
    intro hc
    rw [detectCaptures_eq, hc] at hpmem
    exact absurd hpmem (List.not_mem_nil p)
  have hpF : p ∈ (neighborsOf r c).filter (fun n =>
      decide (b.isValidPosition n.1 n.2 = true ∧
        b.getStone n.1 n.2 = color.opponentStone) &&
      decide (hasNoLiberties b
        (getConnectedGroup b n.1 n.2 color.opponentStone) = true)) := by
    rcases List.exists_mem_of_ne_nil _ hFne with ⟨x, hx⟩
    rw [← hFall x hx]
    exact hx
  have hF : (neighborsOf r c).filter (fun n =>
      decide (b.isValidPosition n.1 n.2 = true ∧
        b.getStone n.1 n.2 = color.opponentStone) &&
      decide (hasNoLiberties b
        (getConnectedGroup b n.1 n.2 color.opponentStone) = true)) = [p] :=
    eq_singleton_of_all_eq _ p hFnd hFall hpF
  have hcapsg : detectCaptures b r c color =
      getConnectedGroup b p.1 p.2 color.opponentStone := by
    rw [detectCaptures_eq, hF]
    simp
  have hgall : ∀ x ∈ getConnectedGroup b p.1 p.2 color.opponentStone, x = p := by
    intro x hx
    refine hall x ?_
    rw [hcapsg]
    exact hx
  have hpg : p ∈ getConnectedGroup b p.1 p.2 color.opponentStone := by
    rw [← hcapsg]
    exact hpmem
  rw [hcapsg]
  exact eq_singleton_of_all_eq _ p (getConnectedGroup_nodup b p.1 p.2 _) hgall hpg

theorem detectKo_single (bB bA : Board) (mr mc : Int) (p : Int × Int) :
    detectKo bB bA mr mc [p] = some (p.1 + 1, p.2 + 1) := rfl

theorem detectKo_not_single (bB bA : Board) (mr mc : Int)
    (caps : List (Int × Int)) (h : ∀ p, caps ≠ [p]) :
    detectKo bB bA mr mc caps = none := by
  cases caps with
  | nil => rfl
  | cons a t =>
    cases t with
    | nil => exact absurd rfl (h a)
    | cons y t2 => rfl

theorem flatMap_row_length {α : Type} (w : Nat) (g : Nat → Nat → α) :
    ∀ h : Nat,
      ((List.range h).flatMap (fun row => (List.range w).map (g row))).length =
        h * w := by
  intro h
  induction h with
  | zero => simp
  | succ h ih =>
    rw [List.range_succ, List.flatMap_append]
    simp only [List.length_append, ih, List.flatMap_cons, List.flatMap_nil,
      List.append_nil, List.length_map, List.length_range, Nat.succ_mul]

theorem flatMap_row_getD {α : Type} (w : Nat) (d : α) :
    ∀ (h : Nat) (g : Nat → Nat → α) (r c : Nat), r < h → c < w →
      ((List.range h).flatMap (fun row => (List.range w).map (g row))).getD
        (r * w + c) d = g r c := by
  intro h
  induction h with
  | zero => intro g r c hr _; exact absurd hr (Nat.not_lt_zero r)
  | succ h ih =>
    intro g r c hr hc
    rw [List.range_succ, List.flatMap_append]
    by_cases hrh : r < h
    · rw [List.getD_append]
      · exact ih g r c hrh hc
      · rw [flatMap_row_length]
        calc r * w + c < r * w + w := by omega
        _ = (r + 1) * w := (Nat.succ_mul r w).symm
        _ ≤ h * w := Nat.mul_le_mul_right w hrh
    · have hrh2 : r = h := by omega
      subst hrh2
      rw [List.getD_append_right]
      · have hl2 : (([r] : List Nat).flatMap
            (fun row => (List.range w).map (g row))) =
            (List.range w).map (g r) := by simp
        rw [hl2, flatMap_row_length, Nat.add_sub_cancel_left]
        rw [List.getD_eq_getElem _ _ (by simpa using hc)]
        simp
      · rw [flatMap_row_length]
        exact Nat.le_add_right (r * w) c

theorem length_boardStateToString (b : Board) (ko : Option (Int × Int)) :
    (boardStateToString b ko).length = b.height * b.width := by
  unfold boardStateToString
  exact flatMap_row_length b.width _ b.height

theorem boardStateToString_getD (b : Board) (ko : Option (Int × Int)) (r c : Nat)
    (hr : r < b.height) (hc : c < b.width) :
    (boardStateToString b ko).getD (r * b.width + c) ' ' =
      if ko = some (((r : Nat) : Int) + 1, ((c : Nat) : Int) + 1) then 'x'
      else if b.getStone (r : Int) (c : Int) = Stone.BLACK then 'B'
      else if b.getStone (r : Int) (c : Int) = Stone.WHITE then 'W'
      else '.' := by
  unfold boardStateToString
  exact flatMap_row_getD b.width ' ' b.height _ r c hr hc

theorem mem_emptyPositionsList (b : Board) (q : Int × Int) :
    q ∈ emptyPositionsList b ↔
      ∃ rN cN : Nat, rN < b.height ∧ cN < b.width ∧
        q = ((rN : Int), (cN : Int)) ∧ b.isEmpty (rN : Int) (cN : Int) = true := by
  unfold emptyPositionsList
  rw [List.mem_flatMap]
  constructor
  · rintro ⟨rN, hrN, hmem⟩
    rw [List.mem_range] at hrN
    rw [List.mem_filterMap] at hmem
    obtain ⟨cN, hcN, hsome⟩ := hmem
    rw [List.mem_range] at hcN
    by_cases hemp : b.isEmpty (rN : Int) (cN : Int) = true
    · rw [if_pos hemp] at hsome
      rw [Option.some.injEq] at hsome
      exact ⟨rN, cN, hrN, hcN, hsome.symm, hemp⟩
    · rw [if_neg hemp] at hsome
      exact absurd hsome (by simp)
  · rintro ⟨rN, cN, hrN, hcN, hq, hemp⟩
    refine ⟨rN, List.mem_range.mpr hrN, ?_⟩
    rw [List.mem_filterMap]
    exact ⟨cN, List.mem_range.mpr hcN, by rw [if_pos hemp, hq]⟩

theorem calculateMove_some (b : Board) (color : Color) (rand : Int → Int → ℚ)
    (m : Int × Int) (h : calculateMove b color rand = some m) :
    ∃ q ∈ emptyPositionsList b, m = (q.1 + 1, q.2 + 1) := by
  have key : calculateMove b color rand =
      if (emptyPositionsList b).isEmpty then none
      else
        match List.foldl
            (pickStep (fun pos =>
              evaluateMove b pos.1 pos.2 color.stone color.opponentStone
                (rand pos.1 pos.2)))
            none (emptyPositionsList b) with
        | some best => some (best.1.1 + 1, best.1.2 + 1)
        | none => none := rfl
  rw [key] at h
  by_cases he : (emptyPositionsList b).isEmpty
  · rw [if_pos he] at h
    exact absurd h (by simp)
  · rw [if_neg he] at h
    rcases foldl_pickStep_spec
      (fun pos => evaluateMove b pos.1 pos.2 color.stone color.opponentStone
        (rand pos.1 pos.2)) (emptyPositionsList b) with
      ⟨hl, -⟩ | ⟨p, hres, l1, l2, hdec, -, -⟩
    · rw [hl] at he
      simp at he
    · rw [hres] at h
      have h2 : (some (p.1 + 1, p.2 + 1) : Option (Int × Int)) = some m := h
      rw [Option.some.injEq] at h2
      refine ⟨p, ?_, h2.symm⟩
      rw [hdec]
      exact List.mem_append_right l1 (List.mem_cons_self p l2)

/-- The NPC move wrapper never returns a board position that the state
string marks `x` (the ko cell): either the chosen move is elsewhere, or the
`x` check fires and the no-move sentinel (-1, -1) is returned. -/
theorem getNPCMoveWithKo_ne_ko (b2 : Board) (color : Color) (ko : Int × Int)
    (h1 : 1 ≤ ko.1) (h2 : ko.1 ≤ (b2.height : Int))
    (h3 : 1 ≤ ko.2) (h4 : ko.2 ≤ (b2.width : Int))
    (rand : Int → Int → ℚ) :
    getNPCMoveWithKo b2 color (boardStateToString b2 (some ko)) rand ≠ some ko := by
  unfold getNPCMoveWithKo
  cases hm : calculateMove b2 color rand with
  | none =>
    show (some (-1, -1) : Option (Int × Int)) ≠ some ko
    intro hc
    have hc2 : ((-1, -1) : Int × Int) = ko := by
      rw [Option.some.injEq] at hc
      exact hc
    rw [← hc2] at h1
    norm_num at h1
  | some m =>
    show (if jsCharAt (boardStateToString b2 (some ko))
        ((m.1 - 1) * (b2.width : Int) + (m.2 - 1)) = some 'x' then
      (some (-1, -1) : Option (Int × Int)) else some m) ≠ some ko
    obtain ⟨q, hq, hmq⟩ := calculateMove_some b2 color rand m hm
    obtain ⟨rN, cN, hrN, hcN, hqe, -⟩ := (mem_emptyPositionsList b2 q).mp hq
    by_cases hko : m = ko
    · subst hko
      have hidx : (m.1 - 1) * (b2.width : Int) + (m.2 - 1) =
          ((rN * b2.width + cN : Nat) : Int) := by
        rw [hmq, hqe]
        push_cast
        ring
      have hlt : rN * b2.width + cN < b2.height * b2.width :=
        calc rN * b2.width + cN < rN * b2.width + b2.width := by omega
        _ = (rN + 1) * b2.width := (Nat.succ_mul rN b2.width).symm
        _ ≤ b2.height * b2.width := Nat.mul_le_mul_right b2.width hrN
      have hchar : jsCharAt (boardStateToString b2 (some m))
          ((m.1 - 1) * (b2.width : Int) + (m.2 - 1)) = some 'x' := by
        unfold jsCharAt
        rw [hidx, length_boardStateToString]
        rw [if_pos ⟨by positivity, by exact_mod_cast hlt⟩]
        rw [Int.toNat_natCast]
        rw [boardStateToString_getD b2 (some m) rN cN hrN hcN]
        rw [if_pos (by rw [Option.some.injEq, hmq, hqe])]
      rw [if_pos hchar]
      intro hc
      have hc2 : ((-1, -1) : Int × Int) = m := by
        rw [Option.some.injEq] at hc
        exact hc
      rw [hmq, hqe, Prod.mk.injEq] at hc2
      have hc3 := hc2.1
      omega
    · by_cases hch : jsCharAt (boardStateToString b2 (some ko))
          ((m.1 - 1) * (b2.width : Int) + (m.2 - 1)) = some 'x'
      · rw [if_pos hch]
        intro hc
        have hc2 : ((-1, -1) : Int × Int) = ko := by
          rw [Option.some.injEq] at hc
          exact hc
        rw [← hc2] at h1
        norm_num at h1
      · rw [if_neg hch]
        intro hc
        rw [Option.some.injEq] at hc
        exact hko hc


/-- **C2.**  After black or white plays at an in-bounds empty `pos`: when the
move captures exactly one stone `p`, `detectKo` reports exactly `p`'s
one-based coordinate, and on the following turn `getNPCMoveWithKo` for the
opposite colour, fed the board string that marks that cell `x`, never
returns that coordinate (for any jitter draws); when the number of distinct
captured stones differs from one, no ko position is reported. -/
theorem claim_C2_ko_law (b : Board) (pos : Int × Int) (color : Color)
    (hvalid : b.isValidPosition pos.1 pos.2 = true)
    (hempty : b.getStone pos.1 pos.2 = Stone.NONE) :
    ((detectCaptures (b.setStone pos.1 pos.2 color.stone) pos.1 pos.2
        color).dedup.length = 1 →
      ∃ p, (detectCaptures (b.setStone pos.1 pos.2 color.stone) pos.1 pos.2
          color).dedup = [p] ∧
        detectKo b
          (removeCaptured (b.setStone pos.1 pos.2 color.stone)
            (detectCaptures (b.setStone pos.1 pos.2 color.stone) pos.1 pos.2
              color))
          (pos.1 + 1) (pos.2 + 1)
          (detectCaptures (b.setStone pos.1 pos.2 color.stone) pos.1 pos.2
            color) = some (p.1 + 1, p.2 + 1) ∧
        (b.setStone pos.1 pos.2 color.stone).getStone p.1 p.2 =
          color.opponentStone ∧
        ∀ rand, getNPCMoveWithKo
            (removeCaptured (b.setStone pos.1 pos.2 color.stone)
              (detectCaptures (b.setStone pos.1 pos.2 color.stone) pos.1 pos.2
                color))
            color.opposite
            (boardStateToString
              (removeCaptured (b.setStone pos.1 pos.2 color.stone)
                (detectCaptures (b.setStone pos.1 pos.2 color.stone) pos.1
                  pos.2 color))
              (some (p.1 + 1, p.2 + 1))) rand ≠ some (p.1 + 1, p.2 + 1)) ∧
    ((detectCaptures (b.setStone pos.1 pos.2 color.stone) pos.1 pos.2
        color).dedup.length ≠ 1 →
      detectKo b
        (removeCaptured (b.setStone pos.1 pos.2 color.stone)
          (detectCaptures (b.setStone pos.1 pos.2 color.stone) pos.1 pos.2
            color))
        (pos.1 + 1) (pos.2 + 1)
        (detectCaptures (b.setStone pos.1 pos.2 color.stone) pos.1 pos.2
          color) = none) := by
  have hne : color.opponentStone ≠ Stone.NONE := by cases color <;> decide
  generalize hb1 : b.setStone pos.1 pos.2 color.stone = b1
  constructor
  · intro hone
    obtain ⟨p, hdedup⟩ : ∃ p,
        (detectCaptures b1 pos.1 pos.2 color).dedup = [p] := by
      cases hd : (detectCaptures b1 pos.1 pos.2 color).dedup with
      | nil => rw [hd] at hone; simp at hone
      | cons a t =>
        cases t with
        | nil => exact ⟨a, rfl⟩
        | cons y t2 => rw [hd] at hone; simp at hone
    have hcaps : detectCaptures b1 pos.1 pos.2 color = [p] :=
      detectCaptures_single b1 pos.1 pos.2 color p hdedup
    have hpmem : p ∈ detectCaptures b1 pos.1 pos.2 color := by
      rw [hcaps]; exact List.mem_singleton_self p
    obtain ⟨n, hn, hnv, hns, hnl, hpg⟩ :=
      (mem_detectCaptures b1 pos.1 pos.2 color p).mp hpmem
    have hpstone : b1.getStone p.1 p.2 = color.opponentStone :=
      getConnectedGroup_stone b1 n.1 n.2 color.opponentStone p hpg
    have hpvalid : b1.isValidPosition p.1 p.2 = true :=
      Board.isValidPosition_of_getStone_ne_none b1 p.1 p.2 (by
        rw [hpstone]; exact hne)
    rw [Board.isValidPosition_iff] at hpvalid
    refine ⟨p, hdedup, by rw [hcaps]; rfl, hpstone, ?_⟩
    intro rand
    refine getNPCMoveWithKo_ne_ko (removeCaptured b1
        (detectCaptures b1 pos.1 pos.2 color)) color.opposite
      (p.1 + 1, p.2 + 1) (show 1 ≤ p.1 + 1 by omega) ?_
      (show 1 ≤ p.2 + 1 by omega) ?_ rand
    · show p.1 + 1 ≤
        ((removeCaptured b1 (detectCaptures b1 pos.1 pos.2 color)).height : Int)
      rw [removeCaptured_height]
      omega
    · show p.2 + 1 ≤
        ((removeCaptured b1 (detectCaptures b1 pos.1 pos.2 color)).width : Int)
      rw [removeCaptured_width]
      omega
  · intro hnotone
    refine detectKo_not_single _ _ _ _ _ (fun p hc => hnotone ?_)
    rw [hc]
    simp

/-- Witness for C2: black plays (0,1) on the 2x1 board `W .`, capturing the
single white stone at (0,0); the ko position is its one-based coordinate
(1,1) and white's next `getNPCMoveWithKo` refuses to return it. -/
theorem claim_C2_witness :
    detectKo ((Board.new 2 1).setStone 0 0 Stone.WHITE)
      (removeCaptured
        (((Board.new 2 1).setStone 0 0 Stone.WHITE).setStone 0 1 Stone.BLACK)
        (detectCaptures
          (((Board.new 2 1).setStone 0 0 Stone.WHITE).setStone 0 1 Stone.BLACK)
          0 1 Color.black))
      1 2
      (detectCaptures
        (((Board.new 2 1).setStone 0 0 Stone.WHITE).setStone 0 1 Stone.BLACK)
        0 1 Color.black) = some (1, 1) ∧
    getNPCMoveWithKo
      (removeCaptured
        (((Board.new 2 1).setStone 0 0 Stone.WHITE).setStone 0 1 Stone.BLACK)
        (detectCaptures
          (((Board.new 2 1).setStone 0 0 Stone.WHITE).setStone 0 1 Stone.BLACK)
          0 1 Color.black))
      Color.white
      (boardStateToString
        (removeCaptured
          (((Board.new 2 1).setStone 0 0 Stone.WHITE).setStone 0 1 Stone.BLACK)
          (detectCaptures
            (((Board.new 2 1).setStone 0 0 Stone.WHITE).setStone 0 1
              Stone.BLACK) 0 1 Color.black))
        (some (1, 1)))
      (fun _ _ => 1/2) ≠ some (1, 1) := by
  obtain ⟨hone, -⟩ := claim_C2_ko_law ((Board.new 2 1).setStone 0 0 Stone.WHITE)
    (0, 1) Color.black (by decide) (by decide)
  obtain ⟨p, hdedup, hko, -, hforb⟩ := hone (by decide)
  have hp : ([p] : List (Int × Int)) = [((0 : Int), (0 : Int))] := by
    rw [← hdedup]
    decide
  injection hp with hp2 htail
  subst hp2
  exact ⟨hko, hforb (fun _ _ => 1/2)⟩

def oppositeStone : Stone → Stone
  | Stone.BLACK => Stone.WHITE
  | Stone.WHITE => Stone.BLACK
  | Stone.NONE => Stone.NONE

/-- Soundness of the liberty flood fill: every liberty it reports (beyond the
incoming accumulator) is a valid empty cell orthogonally adjacent to a stone
of `pos`'s connected group, provided the visited cell is the root or a
neighbour of a group member. -/
theorem ffl_sound (b : Board) (stone : Stone) (pos : Int × Int)
    (hroot : b.getStone pos.1 pos.2 = stone) (hne : stone ≠ Stone.NONE) :
    ∀ (fuel : Nat) (r c : Int) (visited liberties : Finset (Int × Int)),
      ((r, c) = pos ∨ ∃ x, connectedTo b stone pos x ∧ adjacentCell x (r, c)) →
      ∀ e ∈ (floodFillLiberties b stone fuel r c visited liberties).2,
        e ∈ liberties ∨
          (b.isValidPosition e.1 e.2 = true ∧
            b.getStone e.1 e.2 = Stone.NONE ∧
            ∃ x, connectedTo b stone pos x ∧ adjacentCell x e) := by
  intro fuel
  induction fuel with
  | zero => exact fun r c visited liberties _ e he => Or.inl he
  | succ fuel ih =>
    intro r c visited liberties hP e he
    simp only [floodFillLiberties] at he
    by_cases hmem : (r, c) ∈ visited
    · rw [if_pos (Or.inl hmem)] at he
      exact Or.inl he
    · by_cases hv : b.isValidPosition r c = true
      · rw [if_neg (not_or.mpr ⟨hmem, by simp [hv]⟩)] at he
        by_cases hempty : b.getStone r c = Stone.NONE
        · rw [if_pos hempty] at he
          rcases Finset.mem_insert.mp he with rfl | h2
          · rcases hP with hPp | ⟨x, hxc, hxa⟩
            · have hcontra : stone = Stone.NONE := by
                rw [← hroot, ← hPp]
                exact hempty
              exact absurd hcontra hne
            · exact Or.inr ⟨hv, hempty, x, hxc, hxa⟩
          · exact Or.inl h2
        · rw [if_neg hempty] at he
          by_cases hst : b.getStone r c = stone
          · rw [if_neg (by simp [hst])] at he
            have hconn : connectedTo b stone pos (r, c) := by
              rcases hP with hPp | ⟨x, hxc, hxa⟩
              · rw [hPp]; exact Relation.ReflTransGen.refl
              · exact hxc.tail ⟨hxa, hv, hst⟩
            have hQ : ∀ d ∈ neighborsOf r c,
                (d = pos ∨ ∃ x, connectedTo b stone pos x ∧ adjacentCell x d) :=
              fun d hd => Or.inr ⟨(r, c), hconn, hd⟩
            have hn1 : ((r - 1, c) : Int × Int) ∈ neighborsOf r c := by
              rw [neighborsOf_eq]; exact List.mem_cons_self _ _
            have hn2 : ((r + 1, c) : Int × Int) ∈ neighborsOf r c := by
              rw [neighborsOf_eq]
              exact List.mem_cons_of_mem _ (List.mem_cons_self _ _)
            have hn3 : ((r, c - 1) : Int × Int) ∈ neighborsOf r c := by
              rw [neighborsOf_eq]
              exact List.mem_cons_of_mem _
                (List.mem_cons_of_mem _ (List.mem_cons_self _ _))
            have hn4 : ((r, c + 1) : Int × Int) ∈ neighborsOf r c := by
              rw [neighborsOf_eq]
              exact List.mem_cons_of_mem _ (List.mem_cons_of_mem _
                (List.mem_cons_of_mem _ (List.mem_cons_self _ _)))
            rcases ih r (c + 1) _ _ (hQ _ hn4) e he with h | hgood
            · rcases ih r (c - 1) _ _ (hQ _ hn3) e h with h | hgood
              · rcases ih (r + 1) c _ _ (hQ _ hn2) e h with h | hgood
                · exact ih (r - 1) c _ _ (hQ _ hn1) e h
                · exact Or.inr hgood
              · exact Or.inr hgood
            · exact Or.inr hgood
          · rw [if_pos (by simp [hst])] at he
            exact Or.inl he
      · have hvf : b.isValidPosition r c = false := by simpa using hv
        rw [if_pos (Or.inr hvf)] at he
        exact Or.inl he

/-- Completeness of the liberty flood fill under sufficient fuel (every
level that does not return immediately marks a fresh valid cell visited, so
`|cells \ visited| + 1` levels always suffice): the visited and liberty sets
grow monotonically, the root gets visited, every newly visited empty cell is
recorded as a liberty, and every newly visited group stone has all its valid
neighbours visited. -/
theorem ffl_main (b : Board) (stone : Stone) (hne : stone ≠ Stone.NONE) :
    ∀ (fuel : Nat) (r c : Int) (visited liberties : Finset (Int × Int)),
      (cellsFinset b \ visited).card + 1 ≤ fuel →
      (∀ x ∈ visited,
        x ∈ (floodFillLiberties b stone fuel r c visited liberties).1) ∧
      (∀ x ∈ liberties,
        x ∈ (floodFillLiberties b stone fuel r c visited liberties).2) ∧
      (b.isValidPosition r c = true →
        (r, c) ∈ (floodFillLiberties b stone fuel r c visited liberties).1) ∧
      (∀ p ∈ (floodFillLiberties b stone fuel r c visited liberties).1,
        p ∉ visited → b.getStone p.1 p.2 = Stone.NONE →
        p ∈ (floodFillLiberties b stone fuel r c visited liberties).2) ∧
      (∀ p ∈ (floodFillLiberties b stone fuel r c visited liberties).1,
        p ∉ visited → b.getStone p.1 p.2 = stone →
        ∀ n ∈ neighborsOf p.1 p.2, b.isValidPosition n.1 n.2 = true →
          n ∈ (floodFillLiberties b stone fuel r c visited liberties).1) := by
  intro fuel
  induction fuel with
  | zero =>
    intro r c visited liberties hf
    exact absurd hf (by omega)
  | succ fuel ih =>
    intro r c visited liberties hf
    by_cases hmem : (r, c) ∈ visited
    · simp only [floodFillLiberties]
      rw [if_pos (Or.inl hmem)]
      exact ⟨fun x hx => hx, fun x hx => hx, fun _ => hmem,
        fun p hp hnp => absurd hp hnp, fun p hp hnp => absurd hp hnp⟩
    · by_cases hv : b.isValidPosition r c = true
      · by_cases hempty : b.getStone r c = Stone.NONE
        · simp only [floodFillLiberties]
          rw [if_neg (not_or.mpr ⟨hmem, by simp [hv]⟩), if_pos hempty]
          refine ⟨fun x hx => Finset.mem_insert_of_mem hx,
            fun x hx => Finset.mem_insert_of_mem hx,
            fun _ => Finset.mem_insert_self _ _, ?_, ?_⟩
          · intro p hp hnp _
            rcases Finset.mem_insert.mp hp with rfl | h2
            · exact Finset.mem_insert_self _ _
            · exact absurd h2 hnp
          · intro p hp hnp hps
            rcases Finset.mem_insert.mp hp with rfl | h2
            · have hcontra : stone = Stone.NONE := by
                rw [← hps]
                exact hempty
              exact absurd hcontra hne
            · exact absurd h2 hnp
        · by_cases hst : b.getStone r c = stone
          · simp only [floodFillLiberties]
            rw [if_neg (not_or.mpr ⟨hmem, by simp [hv]⟩), if_neg hempty,
              if_neg (by simp [hst])]
            generalize hR1 : floodFillLiberties b stone fuel (r - 1) c
              (insert (r, c) visited) liberties = R1
            generalize hR2 : floodFillLiberties b stone fuel (r + 1) c
              R1.1 R1.2 = R2
            generalize hR3 : floodFillLiberties b stone fuel r (c - 1)
              R2.1 R2.2 = R3
            generalize hR4 : floodFillLiberties b stone fuel r (c + 1)
              R3.1 R3.2 = R4
            have hvfresh : (r, c) ∈ cellsFinset b \ visited :=
              Finset.mem_sdiff.mpr ⟨(mem_cellsFinset b (r, c)).mpr hv, hmem⟩
            have hcard1 : (cellsFinset b \ insert (r, c) visited).card =
                (cellsFinset b \ visited).card - 1 := by
              rw [Finset.sdiff_insert, Finset.card_erase_of_mem hvfresh]
            have hcpos : 1 ≤ (cellsFinset b \ visited).card :=
              Finset.card_pos.mpr ⟨(r, c), hvfresh⟩
            have hf1 : (cellsFinset b \ insert (r, c) visited).card + 1 ≤ fuel := by
              omega
            obtain ⟨a1, b1m, c1m, d1m, e1m⟩ :=
              ih (r - 1) c (insert (r, c) visited) liberties hf1
            rw [hR1] at a1 b1m c1m d1m e1m
            have hf2 : (cellsFinset b \ R1.1).card + 1 ≤ fuel := by
              have hmono : (cellsFinset b \ R1.1).card ≤
                  (cellsFinset b \ insert (r, c) visited).card :=
                Finset.card_le_card
                  (Finset.sdiff_subset_sdiff (Finset.Subset.refl _)
                    (fun x hx => a1 x hx))
              omega
            obtain ⟨a2, b2m, c2m, d2m, e2m⟩ := ih (r + 1) c R1.1 R1.2 hf2
            rw [hR2] at a2 b2m c2m d2m e2m
            have hf3 : (cellsFinset b \ R2.1).card + 1 ≤ fuel := by
              have hmono : (cellsFinset b \ R2.1).card ≤
                  (cellsFinset b \ insert (r, c) visited).card :=
                Finset.card_le_card
                  (Finset.sdiff_subset_sdiff (Finset.Subset.refl _)
                    (fun x hx => a2 x (a1 x hx)))
              omega
            obtain ⟨a3, b3m, c3m, d3m, e3m⟩ := ih r (c - 1) R2.1 R2.2 hf3
            rw [hR3] at a3 b3m c3m d3m e3m
            have hf4 : (cellsFinset b \ R3.1).card + 1 ≤ fuel := by
              have hmono : (cellsFinset b \ R3.1).card ≤
                  (cellsFinset b \ insert (r, c) visited).card :=
                Finset.card_le_card
                  (Finset.sdiff_subset_sdiff (Finset.Subset.refl _)
                    (fun x hx => a3 x (a2 x (a1 x hx))))
              omega
            obtain ⟨a4, b4m, c4m, d4m, e4m⟩ := ih r (c + 1) R3.1 R3.2 hf4
            rw [hR4] at a4 b4m c4m d4m e4m
            have chain1 : ∀ x ∈ R1.1, x ∈ R4.1 :=
              fun x hx => a4 x (a3 x (a2 x hx))
            have chain2 : ∀ x ∈ R2.1, x ∈ R4.1 := fun x hx => a4 x (a3 x hx)
            have chain3 : ∀ x ∈ R3.1, x ∈ R4.1 := a4
            have chainL1 : ∀ x ∈ R1.2, x ∈ R4.2 :=
              fun x hx => b4m x (b3m x (b2m x hx))
            have chainL2 : ∀ x ∈ R2.2, x ∈ R4.2 := fun x hx => b4m x (b3m x hx)
            have chainL3 : ∀ x ∈ R3.2, x ∈ R4.2 := b4m
            have hins : ∀ x ∈ insert (r, c) visited, x ∈ R4.1 :=
              fun x hx => chain1 x (a1 x hx)
            refine ⟨?_, ?_, ?_, ?_, ?_⟩
            · exact fun x hx => hins x (Finset.mem_insert_of_mem hx)
            · exact fun x hx => chainL1 x (b1m x hx)
            · exact fun _ => hins (r, c) (Finset.mem_insert_self _ _)
            · intro p hp hnp he2
              by_cases hpR3 : p ∈ R3.1
              · by_cases hpR2 : p ∈ R2.1
                · by_cases hpR1 : p ∈ R1.1
                  · by_cases hpv1 : p ∈ insert (r, c) visited
                    · rcases Finset.mem_insert.mp hpv1 with rfl | h2
                      · exact absurd he2 hempty
                      · exact absurd h2 hnp
                    · exact chainL1 p (d1m p hpR1 hpv1 he2)
                  · exact chainL2 p (d2m p hpR2 hpR1 he2)
                · exact chainL3 p (d3m p hpR3 hpR2 he2)
              · exact d4m p hp hpR3 he2
            · intro p hp hnp hps n hn hvn
              by_cases hpR3 : p ∈ R3.1
              · by_cases hpR2 : p ∈ R2.1
                · by_cases hpR1 : p ∈ R1.1
                  · by_cases hpv1 : p ∈ insert (r, c) visited
                    · rcases Finset.mem_insert.mp hpv1 with rfl | h2
                      · rw [neighborsOf_eq] at hn
                        rcases List.mem_cons.mp hn with rfl | hn
                        · exact chain1 (r - 1, c) (c1m hvn)
                        · rcases List.mem_cons.mp hn with rfl | hn
                          · exact chain2 (r + 1, c) (c2m hvn)
                          · rcases List.mem_cons.mp hn with rfl | hn
                            · exact chain3 (r, c - 1) (c3m hvn)
                            · rcases List.mem_cons.mp hn with rfl | hn
                              · exact c4m hvn
                              · exact absurd hn (List.not_mem_nil n)
                      · exact absurd h2 hnp
                    · exact chain1 n (e1m p hpR1 hpv1 hps n hn hvn)
                  · exact chain2 n (e2m p hpR2 hpR1 hps n hn hvn)
                · exact chain3 n (e3m p hpR3 hpR2 hps n hn hvn)
              · exact e4m p hp hpR3 hps n hn hvn
          · simp only [floodFillLiberties]
            rw [if_neg (not_or.mpr ⟨hmem, by simp [hv]⟩), if_neg hempty,
              if_pos (by simp [hst])]
            refine ⟨fun x hx => Finset.mem_insert_of_mem hx, fun x hx => hx,
              fun _ => Finset.mem_insert_self _ _, ?_, ?_⟩
            · intro p hp hnp he2
              rcases Finset.mem_insert.mp hp with rfl | h2
              · exact absurd he2 hempty
              · exact absurd h2 hnp
            · intro p hp hnp hps
              rcases Finset.mem_insert.mp hp with rfl | h2
              · exact absurd hps hst
              · exact absurd h2 hnp
      · have hvf : b.isValidPosition r c = false := by simpa using hv
        simp only [floodFillLiberties]
        rw [if_pos (Or.inr hvf)]
        exact ⟨fun x hx => hx, fun x hx => hx, fun hvld => absurd hvld hv,
          fun p hp hnp => absurd hp hnp, fun p hp hnp => absurd hp hnp⟩

/-- **C3.**  For every board and every position holding a stone, the computed
liberty count is the cardinality of the set of liberties found by the flood
fill, that set contains exactly the distinct valid Empty cells orthogonally
adjacent to some member of the stone's connected group (each shared empty
cell counted once, being a set), and the count is 0 exactly when every valid
neighbour of every group member is itself a group member or an opposing
stone — i.e. the group is fully surrounded by the opposing colour and/or the
board edge. -/
theorem claim_C3_liberty_count (b : Board) (pos : Int × Int) (stone : Stone)
    (hvalid : b.isValidPosition pos.1 pos.2 = true)
    (hstone : b.getStone pos.1 pos.2 = stone)
    (hne : stone ≠ Stone.NONE) :
    countLiberties b pos.1 pos.2 stone =
      (floodFillLiberties b stone (b.width * b.height + 1) pos.1 pos.2
        ∅ ∅).2.card ∧
    (∀ e, e ∈ (floodFillLiberties b stone (b.width * b.height + 1) pos.1 pos.2
        ∅ ∅).2 ↔
      (b.isValidPosition e.1 e.2 = true ∧ b.getStone e.1 e.2 = Stone.NONE ∧
        ∃ x, connectedTo b stone pos x ∧ adjacentCell x e)) ∧
    (countLiberties b pos.1 pos.2 stone = 0 ↔
      ∀ x, connectedTo b stone pos x → ∀ n ∈ neighborsOf x.1 x.2,
        b.isValidPosition n.1 n.2 = true →
          (connectedTo b stone pos n ∨
            b.getStone n.1 n.2 = oppositeStone stone)) := by
  have hf : (cellsFinset b \ (∅ : Finset (Int × Int))).card + 1 ≤
      b.width * b.height + 1 := by
    rw [Finset.sdiff_empty, card_cellsFinset, Nat.mul_comm]
  obtain ⟨m1, m2, m3, m4, m5⟩ :=
    ffl_main b stone hne (b.width * b.height + 1) pos.1 pos.2 ∅ ∅ hf
  have hmem : ∀ e, e ∈ (floodFillLiberties b stone (b.width * b.height + 1)
      pos.1 pos.2 ∅ ∅).2 ↔
      (b.isValidPosition e.1 e.2 = true ∧ b.getStone e.1 e.2 = Stone.NONE ∧
        ∃ x, connectedTo b stone pos x ∧ adjacentCell x e) := by
    intro e
    constructor
    · intro he
      rcases ffl_sound b stone pos hstone hne (b.width * b.height + 1)
        pos.1 pos.2 ∅ ∅ (Or.inl Prod.mk.eta) e he with h | h
      · exact absurd h (Finset.not_mem_empty e)
      · exact h
    · rintro ⟨hev, hee, x, hxc, hxa⟩
      have hreach : ∀ y, connectedTo b stone pos y →
          y ∈ (floodFillLiberties b stone (b.width * b.height + 1)
            pos.1 pos.2 ∅ ∅).1 := by
        intro y hy
        induction hy with
        | refl =>
          have hm := m3 hvalid
          rwa [Prod.mk.eta] at hm
        | @tail mid y2 hmid hstep ihy =>
          have hmidst : b.getStone mid.1 mid.2 = stone :=
            (connectedTo_stone b stone pos mid hmid hstone hvalid).1
          exact m5 mid ihy (Finset.not_mem_empty mid) hmidst y2 hstep.1
            hstep.2.1
      have hxst : b.getStone x.1 x.2 = stone :=
        (connectedTo_stone b stone pos x hxc hstone hvalid).1
      have heR1 : e ∈ (floodFillLiberties b stone (b.width * b.height + 1)
          pos.1 pos.2 ∅ ∅).1 :=
        m5 x (hreach x hxc) (Finset.not_mem_empty x) hxst e hxa hev
      exact m4 e heR1 (Finset.not_mem_empty e) hee
  refine ⟨rfl, hmem, ?_⟩
  have hcard : countLiberties b pos.1 pos.2 stone =
      (floodFillLiberties b stone (b.width * b.height + 1) pos.1 pos.2
        ∅ ∅).2.card := rfl
  rw [hcard, Finset.card_eq_zero]
  constructor
  · intro hempty2 x hxc n hn hvn
    by_cases hns : b.getStone n.1 n.2 = Stone.NONE
    · have hnl : n ∈ (floodFillLiberties b stone (b.width * b.height + 1)
          pos.1 pos.2 ∅ ∅).2 := (hmem n).mpr ⟨hvn, hns, x, hxc, hn⟩
      rw [hempty2] at hnl
      exact absurd hnl (Finset.not_mem_empty n)
    · by_cases hnsame : b.getStone n.1 n.2 = stone
      · exact Or.inl (hxc.tail ⟨hn, hvn, hnsame⟩)
      · refine Or.inr ?_
        cases stone with
        | NONE => exact absurd rfl hne
        | BLACK =>
          cases hgn : b.getStone n.1 n.2 with
          | NONE => exact absurd hgn hns
          | BLACK => exact absurd hgn hnsame
          | WHITE => rfl
        | WHITE =>
          cases hgn : b.getStone n.1 n.2 with
          | NONE => exact absurd hgn hns
          | BLACK => rfl
          | WHITE => exact absurd hgn hnsame
  · intro hsurr
    rw [Finset.eq_empty_iff_forall_not_mem]
    intro e he
    obtain ⟨hev, hee, x, hxc, hxa⟩ := (hmem e).mp he
    rcases hsurr x hxc e hxa hev with hconn | hopp
    · have hest := (connectedTo_stone b stone pos e hconn hstone hvalid).1
      rw [hee] at hest
      exact hne hest.symm
    · rw [hee] at hopp
      cases stone with
      | NONE => exact absurd rfl hne
      | BLACK => exact absurd hopp (by decide)
      | WHITE => exact absurd hopp (by decide)

/-- Witness for C3: the lone black stone at (0,0) on the 2x1 board has
exactly one liberty (the empty cell (0,1)), and the surrounded-iff-zero
characterization holds for its group. -/
theorem claim_C3_witness :
    countLiberties ((Board.new 2 1).setStone 0 0 Stone.BLACK) 0 0
      Stone.BLACK = 1 ∧
    (countLiberties ((Board.new 2 1).setStone 0 0 Stone.BLACK) 0 0
        Stone.BLACK = 0 ↔
      ∀ x, connectedTo ((Board.new 2 1).setStone 0 0 Stone.BLACK) Stone.BLACK
          (0, 0) x →
        ∀ n ∈ neighborsOf x.1 x.2,
          ((Board.new 2 1).setStone 0 0 Stone.BLACK).isValidPosition n.1 n.2 =
            true →
          (connectedTo ((Board.new 2 1).setStone 0 0 Stone.BLACK) Stone.BLACK
              (0, 0) n ∨
            ((Board.new 2 1).setStone 0 0 Stone.BLACK).getStone n.1 n.2 =
              oppositeStone Stone.BLACK)) :=
  ⟨by decide,
    (claim_C3_liberty_count ((Board.new 2 1).setStone 0 0 Stone.BLACK) (0, 0)
      Stone.BLACK (by decide) (by decide) (by decide)).2.2⟩

end EasyGGS
